import Mathlib

/-!
Verification of the movie recommender (movie_recommender.py).

The embedding models Python dicts as insertion-ordered association lists
(`List (String × V)`): assignment replaces the value in place for an existing
key and appends a new binding at the end otherwise, which is exactly CPython's
dict semantics.  Python sets of strings are modelled as duplicate-free lists.
Floats are modelled as rationals, so `statistics.fmean` becomes exact
`sum / length`.  Rows are taken after the textual phase of parsing (comment
stripping, splitting on the delimiter and trimming), i.e. a movie row is the
triple `(genre, movie_id, movie_name)` and a rating row the triple
`(movie_name, rating, user_id)`; the semantic filters of the loaders
(empty-field rejection for movies, range rejection for ratings) are part of
the model.
-/

attribute [local semireducible] Rat.mul Rat.inv Rat.add Rat.sub

/-- A movie record, as in the `Movie` dataclass. -/
structure Movie where
  genre : String
  movie_id : String
  name : String
deriving DecidableEq

/-- `lookup' k l` is Python `l.get(k)` on an association list. -/
def lookup' {V : Type} (k : String) : List (String × V) → Option V
  | [] => none
  | p :: t => if p.1 = k then some p.2 else lookup' k t

/-- `update' k v l` is Python `l[k] = v`: replace in place, else append. -/
def update' {V : Type} (k : String) (v : V) : List (String × V) → List (String × V)
  | [] => [(k, v)]
  | p :: t => if p.1 = k then (p.1, v) :: t else p :: update' k v t

/-- `store.movies_by_genre.setdefault(g, set()).add(n)`. -/
def addToGenre (g n : String) : List (String × List String) → List (String × List String)
  | [] => [(g, [n])]
  | p :: t =>
    if p.1 = g then (p.1, if n ∈ p.2 then p.2 else p.2 ++ [n]) :: t
    else p :: addToGenre g n t

/-- `store.user_ratings.setdefault(u, {})[m] = r`. -/
def addUserRating (u m : String) (r : ℚ) :
    List (String × List (String × ℚ)) → List (String × List (String × ℚ))
  | [] => [(u, [(m, r)])]
  | p :: t =>
    if p.1 = u then (p.1, update' m r p.2) :: t else p :: addUserRating u m r t

/-- `d.setdefault(m, []).append(r)` for a dict of lists of rationals. -/
def appendRating (m : String) (r : ℚ) : List (String × List ℚ) → List (String × List ℚ)
  | [] => [(m, [r])]
  | p :: t =>
    if p.1 = m then (p.1, p.2 ++ [r]) :: t else p :: appendRating m r t

/-- The four indexes of the `DataStore` class. -/
structure DataStore where
  movies_by_name : List (String × Movie)
  movies_by_genre : List (String × List String)
  ratings_by_movie : List (String × List ℚ)
  user_ratings : List (String × List (String × ℚ))
deriving DecidableEq

def emptyStore : DataStore := ⟨[], [], [], []⟩

/-- `DataStore.clear` re-runs `__init__`, resetting all four indexes. -/
def DataStore.clear (_st : DataStore) : DataStore := emptyStore

/-- One iteration of the loop body of `load_movies_file` (the accepted-row
check `if not genre or not movie_id or not movie_name: continue`, the two
index updates and the counter increment). -/
def loadMoviesStep (acc : DataStore × ℕ) (row : String × String × String) :
    DataStore × ℕ :=
  if row.1 = "" ∨ row.2.1 = "" ∨ row.2.2 = "" then acc
  else
    ({ acc.1 with
        movies_by_name := update' row.2.2 ⟨row.1, row.2.1, row.2.2⟩ acc.1.movies_by_name,
        movies_by_genre := addToGenre row.1 row.2.2 acc.1.movies_by_genre },
      acc.2 + 1)

/-- `load_movies_file`: clears the two movie indexes, then folds the rows.
Returns the new store and the count of accepted rows. -/
def load_movies_file (rows : List (String × String × String)) (st : DataStore) :
    DataStore × ℕ :=
  rows.foldl loadMoviesStep
    ({ st with movies_by_name := [], movies_by_genre := [] }, 0)

/-- One iteration of the rating loop of `load_ratings_file`: the range check
and the last-write-wins insertion into `user_ratings`. -/
def loadRatingsStep (ur : List (String × List (String × ℚ)))
    (row : String × ℚ × String) : List (String × List (String × ℚ)) :=
  if 0 ≤ row.2.1 ∧ row.2.1 ≤ 5 then addUserRating row.2.2 row.1 row.2.1 ur else ur

/-- The rebuild loop of `load_ratings_file`: iterate the final `user_ratings`
and append each rating whose movie is present in `movies_by_name`. -/
def buildRBM (mbn : List (String × Movie))
    (ur : List (String × List (String × ℚ))) : List (String × List ℚ) :=
  ur.foldl
    (fun rbm p =>
      p.2.foldl
        (fun rbm q =>
          if (lookup' q.1 mbn).isSome then appendRating q.1 q.2 rbm else rbm)
        rbm)
    []

/-- `load_ratings_file`: clears the two rating indexes, folds the rows into
`user_ratings`, rebuilds `ratings_by_movie`, and returns the number of unique
`(user, movie)` pairs (`sum(len(per_user) for ...)`). -/
def load_ratings_file (rows : List (String × ℚ × String)) (st : DataStore) :
    DataStore × ℕ :=
  let ur := rows.foldl loadRatingsStep []
  let st' := { st with user_ratings := ur, ratings_by_movie := buildRBM st.movies_by_name ur }
  (st', (ur.map (fun p => p.2.length)).sum)

/-- `statistics.fmean`, exactly, on rationals. -/
def listMean (l : List ℚ) : ℚ := l.sum / l.length

/-- `movie_average_rating`: `None` when the movie has no stored ratings. -/
def movie_average_rating (st : DataStore) (movie_name : String) : Option ℚ :=
  let ratings := (lookup' movie_name st.ratings_by_movie).getD []
  if ratings = [] then none else some (listMean ratings)

/-- Lexicographic comparison of character lists by code point, the order
Python uses on strings (kernel-computable, unlike `String.ltb`). -/
def charsBLE : List Char → List Char → Bool
  | [], _ => true
  | _ :: _, [] => false
  | a :: as, b :: bs =>
    if a < b then true else if b < a then false else charsBLE as bs

/-- String comparison `a <= b` as Python performs it on movie/genre names. -/
def strLE (a b : String) : Prop := charsBLE a.data b.data = true

theorem charsBLE_total : ∀ as bs, charsBLE as bs = true ∨ charsBLE bs as = true
  | [], _ => Or.inl rfl
  | _ :: _, [] => Or.inr rfl
  | a :: as, b :: bs => by
    rcases lt_trichotomy a b with h | h | h
    · left; simp [charsBLE, h]
    · subst h
      rcases charsBLE_total as bs with h2 | h2
      · left; simp [charsBLE, h2]
      · right; simp [charsBLE, h2]
    · right; simp [charsBLE, h]

theorem charsBLE_trans : ∀ as bs cs, charsBLE as bs = true →
    charsBLE bs cs = true → charsBLE as cs = true
  | [], _, _ => fun _ _ => rfl
  | a :: as, [], _ => by intro h; simp [charsBLE] at h
  | _ :: _, _ :: _, [] => by intro _ h2; simp [charsBLE] at h2
  | a :: as, b :: bs, c :: cs => by
    intro h1 h2
    simp only [charsBLE] at h1 h2 ⊢
    rcases lt_trichotomy a b with hab | hab | hab
    · rcases lt_trichotomy b c with hbc | hbc | hbc
      · simp [hab.trans hbc]
      · subst hbc; simp [hab]
      · simp [hbc, not_lt_of_lt hbc] at h2
    · subst hab
      rcases lt_trichotomy a c with hac | hac | hac
      · simp [hac]
      · subst hac
        simp [lt_irrefl] at h1 h2 ⊢
        exact charsBLE_trans as bs cs h1 h2
      · simp [hac, not_lt_of_lt hac] at h2
    · simp [hab, not_lt_of_lt hab] at h1

theorem charsBLE_antisymm : ∀ as bs, charsBLE as bs = true →
    charsBLE bs as = true → as = bs
  | [], [] => fun _ _ => rfl
  | [], _ :: _ => by intro _ h2; simp [charsBLE] at h2
  | _ :: _, [] => by intro h1; simp [charsBLE] at h1
  | a :: as, b :: bs => by
    intro h1 h2
    simp only [charsBLE] at h1 h2
    rcases lt_trichotomy a b with hab | hab | hab
    · simp [hab, not_lt_of_lt hab] at h2
    · subst hab
      simp [lt_irrefl] at h1 h2
      rw [charsBLE_antisymm as bs h1 h2]
    · simp [hab, not_lt_of_lt hab] at h1

/-- The comparator `key=lambda t: (-t[1], -t[2], t[0])` shared by all the
ranking functions: average descending, then count descending, then name
ascending. -/
def rankLE (a b : String × ℚ × ℕ) : Prop :=
  b.2.1 < a.2.1 ∨ (a.2.1 = b.2.1 ∧ (b.2.2 < a.2.2 ∨ (a.2.2 = b.2.2 ∧ strLE a.1 b.1)))

instance : DecidableRel rankLE := fun a b => by
  unfold rankLE strLE; infer_instance

instance : IsTotal (String × ℚ × ℕ) rankLE := by
  constructor
  intro a b
  rcases lt_trichotomy a.2.1 b.2.1 with h | h | h
  · exact Or.inr (Or.inl h)
  · rcases lt_trichotomy a.2.2 b.2.2 with h2 | h2 | h2
    · exact Or.inr (Or.inr ⟨h.symm, Or.inl h2⟩)
    · rcases charsBLE_total a.1.data b.1.data with h3 | h3
      · exact Or.inl (Or.inr ⟨h, Or.inr ⟨h2, h3⟩⟩)
      · exact Or.inr (Or.inr ⟨h.symm, Or.inr ⟨h2.symm, h3⟩⟩)
    · exact Or.inl (Or.inr ⟨h, Or.inl h2⟩)
  · exact Or.inl (Or.inl h)

instance : IsTrans (String × ℚ × ℕ) rankLE := by
  constructor
  intro a b c hab hbc
  rcases hab with h | ⟨he, h⟩
  · rcases hbc with h2 | ⟨he2, _⟩
    · exact Or.inl (h2.trans h)
    · exact Or.inl (he2 ▸ h)
  · rcases hbc with h2 | ⟨he2, h2⟩
    · exact Or.inl (he ▸ h2)
    · refine Or.inr ⟨he.trans he2, ?_⟩
      rcases h with h | ⟨hc, h⟩
      · rcases h2 with h2 | ⟨hc2, _⟩
        · exact Or.inl (h2.trans h)
        · exact Or.inl (hc2 ▸ h)
      · rcases h2 with h2 | ⟨hc2, h2⟩
        · exact Or.inl (hc ▸ h2)
        · exact Or.inr ⟨hc.trans hc2, charsBLE_trans _ _ _ h h2⟩

instance : IsAntisymm (String × ℚ × ℕ) rankLE := by
  constructor
  intro a b hab hba
  have hq : a.2.1 = b.2.1 := by
    rcases hab with h | ⟨he, _⟩
    · rcases hba with h2 | ⟨he2, _⟩
      · exact absurd (h.trans h2) (lt_irrefl _)
      · exact he2.symm
    · exact he
  have hn : a.2.2 = b.2.2 := by
    rcases hab with h | ⟨_, h⟩
    · exact absurd h (hq ▸ lt_irrefl _)
    · rcases h with h | ⟨hc, _⟩
      · rcases hba with h2 | ⟨_, h2⟩
        · exact absurd h2 (hq ▸ lt_irrefl _)
        · rcases h2 with h2 | ⟨hc2, _⟩
          · exact absurd (h.trans h2) (lt_irrefl _)
          · exact hc2.symm
      · exact hc
  have hs : a.1 = b.1 := by
    have h1 : strLE a.1 b.1 := by
      rcases hab with h | ⟨_, h⟩
      · exact absurd h (hq ▸ lt_irrefl _)
      · rcases h with h | ⟨_, h⟩
        · exact absurd h (hn ▸ lt_irrefl _)
        · exact h
    have h2 : strLE b.1 a.1 := by
      rcases hba with h | ⟨_, h⟩
      · exact absurd h (hq ▸ lt_irrefl _)
      · rcases h with h | ⟨_, h⟩
        · exact absurd h (hn ▸ lt_irrefl _)
        · exact h
    have hd : a.1.data = b.1.data := charsBLE_antisymm _ _ h1 h2
    cases ha : a.1
    cases hb : b.1
    simp only [ha, hb] at hd
    rw [hd]
  have ha : a = (a.1, a.2.1, a.2.2) := rfl
  have hb : b = (b.1, b.2.1, b.2.2) := rfl
  rw [ha, hb, hq, hn, hs]

/-- Python slicing `l[:n]` for an arbitrary integer `n`: a nonnegative `n`
takes the first `n` elements, a negative `n` drops the last `|n|`. -/
def pyTake {α : Type} (n : ℤ) (l : List α) : List α :=
  if 0 ≤ n then l.take n.toNat else l.take (l.length - (-n).toNat)

/-- `items[:n] if n is not None else items`. -/
def applyLimit {α : Type} (n : Option ℤ) (l : List α) : List α :=
  match n with
  | none => l
  | some n => pyTake n l

/-- The item built by `rank_movies_by_average` for one candidate name, or
`None` when the candidate has no stored ratings. -/
def rankItem (st : DataStore) (name : String) : Option (String × ℚ × ℕ) :=
  let ratings := (lookup' name st.ratings_by_movie).getD []
  if ratings = [] then none else some (name, listMean ratings, ratings.length)

/-- `rank_movies_by_average`. -/
def rank_movies_by_average (st : DataStore) (movie_names : Option (List String))
    (n : Option ℤ) : List (String × ℚ × ℕ) :=
  let candidates := movie_names.getD (st.ratings_by_movie.map (fun p => p.1))
  let items := candidates.filterMap (rankItem st)
  applyLimit n (List.insertionSort rankLE items)

/-- `rank_movies_in_genre`. -/
def rank_movies_in_genre (st : DataStore) (genre : String) (n : Option ℤ) :
    List (String × ℚ × ℕ) :=
  let genre_movies := (lookup' genre st.movies_by_genre).getD []
  if genre_movies = [] then [] else rank_movies_by_average st (some genre_movies) n

/-- The row built by `rank_genres_by_popularity` for one genre entry, or
`None` when the genre has no rated movie. -/
def genreRow (st : DataStore) (p : String × List String) : Option (String × ℚ × ℕ) :=
  let avgs := p.2.filterMap (movie_average_rating st)
  if avgs = [] then none else some (p.1, listMean avgs, avgs.length)

/-- `rank_genres_by_popularity`. -/
def rank_genres_by_popularity (st : DataStore) (n : Option ℤ) :
    List (String × ℚ × ℕ) :=
  let results := st.movies_by_genre.filterMap (genreRow st)
  applyLimit n (List.insertionSort rankLE results)

/-- `user_top_genre`. -/
def user_top_genre (st : DataStore) (user_id : String) :
    Option (String × ℚ × ℕ) :=
  match lookup' user_id st.user_ratings with
  | none => none
  | some per_user =>
    if per_user = [] then none
    else
      let by_genre := per_user.foldl
        (fun bg q =>
          match lookup' q.1 st.movies_by_name with
          | none => bg
          | some movie => appendRating movie.genre q.2 bg)
        []
      if by_genre = [] then none
      else
        let rows := by_genre.map (fun p => (p.1, listMean p.2, p.2.length))
        (List.insertionSort rankLE rows).head?

/-- The collection loop of `recommend_for_user`: skip rated movies, append
the rest, and break as soon as `len(recs) >= k`. -/
def collectRecs (rated : List String) (genre : String) (k : ℤ) :
    List (String × ℚ × ℕ) → List (String × ℚ × ℕ × String) →
    List (String × ℚ × ℕ × String)
  | [], recs => recs
  | x :: rest, recs =>
    if x.1 ∈ rated then collectRecs rated genre k rest recs
    else
      let recs' := recs ++ [(x.1, x.2.1, x.2.2, genre)]
      if k ≤ (recs'.length : ℤ) then recs' else collectRecs rated genre k rest recs'

/-- `recommend_for_user`. -/
def recommend_for_user (st : DataStore) (user_id : String) (k : ℤ) :
    List (String × ℚ × ℕ × String) :=
  match user_top_genre st user_id with
  | none => []
  | some top =>
    let rated := ((lookup' user_id st.user_ratings).getD []).map (fun q => q.1)
    let ranked := rank_movies_in_genre st top.1 none
    collectRecs rated top.1 k ranked []

/-- The store-mutating operations of a session. -/
inductive Op where
  | loadMovies (rows : List (String × String × String))
  | loadRatings (rows : List (String × ℚ × String))
  | clear

def applyOp (st : DataStore) : Op → DataStore
  | .loadMovies rows => (load_movies_file rows st).1
  | .loadRatings rows => (load_ratings_file rows st).1
  | .clear => DataStore.clear st

/-- The store after a sequence of operations, starting from the fresh store. -/
def runOps (ops : List Op) : DataStore := ops.foldl applyOp emptyStore

/-- The five query operations exposed to the CLI layer. -/
inductive Query where
  | topMovies (n : Option ℤ)
  | topMoviesInGenre (genre : String) (n : Option ℤ)
  | topGenres (n : Option ℤ)
  | userTopGenre (user_id : String)
  | recommend (user_id : String) (k : ℤ)

/-- The result of a query. -/
inductive QueryOutput where
  | rows (l : List (String × ℚ × ℕ))
  | optRow (o : Option (String × ℚ × ℕ))
  | recs (l : List (String × ℚ × ℕ × String))

/-- State-passing translation of the five query functions.  Each branch is
the straight-line translation of the corresponding Python function body,
none of which contains an assignment to a store attribute or a call to a
mutating method of a store collection, so each branch returns the store it
was given. -/
def runQuery (st : DataStore) : Query → DataStore × QueryOutput
  | .topMovies n => (st, .rows (rank_movies_by_average st none n))
  | .topMoviesInGenre g n => (st, .rows (rank_movies_in_genre st g n))
  | .topGenres n => (st, .rows (rank_genres_by_popularity st n))
  | .userTopGenre u => (st, .optRow (user_top_genre st u))
  | .recommend u k => (st, .recs (recommend_for_user st u k))

/-- The multiset that the spec says `ratingsByMovie[n]` must equal: the
values `userRatings[u][n]` over all users `u`, provided `n` is a known
movie; the empty multiset otherwise. -/
def derivedRatings (st : DataStore) (n : String) : Multiset ℚ :=
  if (lookup' n st.movies_by_name).isSome then
    ((st.user_ratings.filterMap (fun p => lookup' n p.2) : List ℚ) : Multiset ℚ)
  else 0

/-- The `ratingsByMovie` invariant of the spec: every stored list carries
exactly the derived multiset, and no unknown movie has an entry. -/
def ratingsInvariant (st : DataStore) : Prop :=
  (∀ n : String,
      (((lookup' n st.ratings_by_movie).getD [] : List ℚ) : Multiset ℚ) = derivedRatings st n) ∧
  (∀ n : String, lookup' n st.movies_by_name = none → lookup' n st.ratings_by_movie = none)

/-- The claimed derived-index property of `moviesByGenre`: a genre's set is
exactly the names currently mapped to that genre, and an entry exists
exactly when some current movie has the genre. -/
def genreDerived (st : DataStore) : Prop :=
  (∀ g n, n ∈ (lookup' g st.movies_by_genre).getD [] ↔
      ∃ mv, lookup' n st.movies_by_name = some mv ∧ mv.genre = g) ∧
  (∀ g, (lookup' g st.movies_by_genre).isSome ↔
      ∃ n mv, lookup' n st.movies_by_name = some mv ∧ mv.genre = g)

/-- The direction of the `moviesByGenre` relationship that the code does
maintain: every current movie is listed under its current genre. -/
def genreConsistent (st : DataStore) : Prop :=
  ∀ n mv, lookup' n st.movies_by_name = some mv →
    n ∈ (lookup' mv.genre st.movies_by_genre).getD []

/-- The three properties claimed of `recommend(user, k)`: nothing already
rated, at most `k` results, and same relative order as the unlimited
ranking of the user's top genre. -/
def recommendProps (st : DataStore) (u : String) (k : ℤ) : Prop :=
  (∀ x ∈ recommend_for_user st u k,
      x.1 ∉ ((lookup' u st.user_ratings).getD []).map (fun q => q.1)) ∧
  ((recommend_for_user st u k).length : ℤ) ≤ k ∧
  (∀ g s c, user_top_genre st u = some (g, s, c) →
      List.Sublist ((recommend_for_user st u k).map (fun x => x.1))
        ((rank_movies_in_genre st g none).map (fun x => x.1)))

/-- The rating-row acceptance test of `load_ratings_file`, as a Bool. -/
def acceptRB (row : String × ℚ × String) : Bool :=
  decide (0 ≤ row.2.1 ∧ row.2.1 ≤ 5)

/-- The movie-row acceptance test of `load_movies_file`, as a Bool. -/
def acceptMB (row : String × String × String) : Bool :=
  !decide (row.1 = "" ∨ row.2.1 = "" ∨ row.2.2 = "")

/-- The `(user, movie)` key of a rating row. -/
def pairOf (row : String × ℚ × String) : String × String := (row.2.2, row.1)

/-- The acceptance condition of a movie row, as a proposition. -/
def acceptM (row : String × String × String) : Prop :=
  ¬(row.1 = "" ∨ row.2.1 = "" ∨ row.2.2 = "")

instance (row : String × String × String) : Decidable (acceptM row) := by
  unfold acceptM; infer_instance

/-- The acceptance condition of a rating row, as a proposition. -/
def acceptR (row : String × ℚ × String) : Prop := 0 ≤ row.2.1 ∧ row.2.1 ≤ 5

instance (row : String × ℚ × String) : Decidable (acceptR row) := by
  unfold acceptR; infer_instance

/-- The `Movie` built from an accepted movie row. -/
def mkMovie (row : String × String × String) : Movie := ⟨row.1, row.2.1, row.2.2⟩

/-- `user_ratings[u][m]` as a partial lookup. -/
def lookup2 (u m : String) (ur : List (String × List (String × ℚ))) : Option ℚ :=
  (lookup' u ur).elim none (lookup' m)

/-- Whether user `u` has an entry for movie `m` in `user_ratings`. -/
def pairMem (u m : String) (ur : List (String × List (String × ℚ))) : Prop :=
  m ∈ ((lookup' u ur).getD []).map (fun q => q.1)

instance (u m : String) (ur : List (String × List (String × ℚ))) :
    Decidable (pairMem u m ur) := by
  unfold pairMem; infer_instance

/-- `sum(len(per_user) for per_user in store.user_ratings.values())`. -/
def sumInner (ur : List (String × List (String × ℚ))) : ℕ :=
  (ur.map (fun p => p.2.length)).sum

/-- The range invariant: every rating stored in `user_ratings` or
`ratings_by_movie` lies in `[0, 5]`. -/
def ratingsInRange (st : DataStore) : Prop :=
  (∀ u d, lookup' u st.user_ratings = some d → ∀ q ∈ d, 0 ≤ q.2 ∧ q.2 ≤ 5) ∧
  (∀ m l, lookup' m st.ratings_by_movie = some l → ∀ r ∈ l, 0 ≤ r ∧ r ≤ 5)

/-- The value retained by a single left-to-right pass that overwrites an
accumulator whenever a row satisfies `p` — the "last write wins" value. -/
def lastVal {A B : Type} (p : A → Prop) [DecidablePred p] (f : A → B)
    (l : List A) : Option B :=
  l.foldl (fun acc a => if p a then some (f a) else acc) none

/-- Concrete data, taken from the repository's own test fixtures. -/
def gAction : String := "Action"
def gDrama : String := "Drama"
def gComedy : String := "Comedy"
def mAlpha : String := "Alpha"
def mBravo : String := "Bravo"
def mCharlie : String := "Charlie"
def mDelta : String := "Delta"
def mEcho : String := "Echo"
def mFoxtrot : String := "Foxtrot"
def mGhost : String := "Ghost"
def mXray : String := "Xray"
def u1 : String := "u1"
def u2 : String := "u2"
def u3 : String := "u3"
def i1 : String := "m1"
def i2 : String := "m2"
def i3 : String := "m3"
def i4 : String := "m4"
def i5 : String := "m5"
def i6 : String := "m6"

def fixtureMovies : List (String × String × String) :=
  [(gAction, i1, mAlpha), (gAction, i2, mBravo), (gDrama, i3, mCharlie),
   (gDrama, i4, mDelta), (gComedy, i5, mEcho), (gComedy, i6, mFoxtrot)]

def fixtureRatings : List (String × ℚ × String) :=
  [(mAlpha, 5, u1), (mAlpha, 4, u2), (mBravo, 2, u1), (mBravo, 4, u1),
   (mBravo, 4, u3), (mCharlie, 5, u1), (mCharlie, 5, u2), (mCharlie, 1, u3),
   (mDelta, 3, u2), (mFoxtrot, 4, u2), (mFoxtrot, 5, u3), (mGhost, 5, u1)]

def goodOps : List Op :=
  [Op.loadMovies fixtureMovies, Op.loadRatings fixtureRatings]

/-- The store after loading the good test fixtures. -/
def goodStore : DataStore := runOps goodOps

/-- Ratings loaded, then a movies reload that drops the rated movie: the
stale `ratings_by_movie` entry for `Alpha` survives. -/
def staleOps : List Op :=
  [Op.loadMovies [(gAction, i1, mAlpha)], Op.loadRatings [(mAlpha, 3, u1)],
   Op.loadMovies [(gAction, i2, mBravo)]]

/-- A movies file whose two rows reuse the name `Xray` with different
genres, then one rating for it. -/
def dupOps : List Op :=
  [Op.loadMovies [(gAction, i1, mXray), (gDrama, i2, mXray)],
   Op.loadRatings [(mXray, 4, u1)]]

def dupStore : DataStore := runOps dupOps

theorem lookup'_update'_self {V : Type} (k : String) (v : V) (l : List (String × V)) :
    lookup' k (update' k v l) = some v := by
  induction l with
  | nil => simp [update', lookup']
  | cons p t ih =>
    by_cases h : p.1 = k
    · simp [update', lookup', h]
    · simp [update', lookup', h, ih]

theorem lookup'_update'_ne {V : Type} (k k' : String) (v : V)
    (l : List (String × V)) (h : k' ≠ k) :
    lookup' k' (update' k v l) = lookup' k' l := by
  induction l with
  | nil =>
    have hk : ¬ (k = k') := fun hh => h hh.symm
    simp [update', lookup', hk]
  | cons p t ih =>
    by_cases hp : p.1 = k
    · simp [update', lookup', hp, Ne.symm h]
    · by_cases hp' : p.1 = k'
      · simp [update', lookup', hp, hp', h]
      · simp [update', lookup', hp, hp', ih]

theorem update'_keys {V : Type} (k : String) (v : V) (l : List (String × V)) :
    (update' k v l).map (fun p => p.1) =
      if k ∈ l.map (fun p => p.1) then l.map (fun p => p.1)
      else l.map (fun p => p.1) ++ [k] := by
  induction l with
  | nil => simp [update']
  | cons p t ih =>
    by_cases h : p.1 = k
    · simp [update', h]
    · simp only [update', if_neg h, List.map_cons, ih]
      by_cases hm : k ∈ t.map (fun p => p.1)
      · simp [hm, Ne.symm h]
      · simp [hm, Ne.symm h]

theorem lookup'_appendRating (m : String) (r : ℚ) (rbm : List (String × List ℚ))
    (n : String) :
    lookup' n (appendRating m r rbm) =
      if m = n then some ((lookup' n rbm).getD [] ++ [r]) else lookup' n rbm := by
  induction rbm with
  | nil =>
    by_cases h : m = n <;> simp [appendRating, lookup', h]
  | cons p t ih =>
    by_cases hp : p.1 = m
    · subst hp
      by_cases h : p.1 = n <;> simp [appendRating, lookup', h, ih]
    · by_cases h : p.1 = n
      · subst h
        simp only [appendRating, if_neg hp, lookup', if_pos rfl]
        by_cases hmn : m = p.1
        · exact absurd hmn.symm hp
        · simp [hmn]
      · simp [appendRating, hp, lookup', h, ih]

theorem lookup'_addUserRating (u m : String) (r : ℚ)
    (ur : List (String × List (String × ℚ))) (u' : String) :
    lookup' u' (addUserRating u m r ur) =
      if u = u' then some (update' m r ((lookup' u' ur).getD []))
      else lookup' u' ur := by
  induction ur with
  | nil =>
    by_cases h : u = u' <;> simp [addUserRating, lookup', update', h]
  | cons p t ih =>
    by_cases hp : p.1 = u
    · subst hp
      by_cases h : p.1 = u' <;> simp [addUserRating, lookup', h, ih]
    · by_cases h : p.1 = u'
      · subst h
        simp only [addUserRating, if_neg hp, lookup', if_pos rfl]
        by_cases hu : u = p.1
        · exact absurd hu.symm hp
        · simp [hu]
      · simp [addUserRating, hp, lookup', h, ih]

theorem mem_addToGenre (g n : String) (mbg : List (String × List String))
    (g' x : String) :
    x ∈ (lookup' g' (addToGenre g n mbg)).getD [] ↔
      (g = g' ∧ x = n) ∨ x ∈ (lookup' g' mbg).getD [] := by
  induction mbg with
  | nil =>
    by_cases h : g = g' <;> simp [addToGenre, lookup', h]
  | cons p t ih =>
    by_cases hp : p.1 = g
    · subst hp
      by_cases h : p.1 = g'
      · by_cases hn : n ∈ p.2 <;>
          simp only [addToGenre, if_pos rfl, lookup', if_pos h, hn, if_pos, if_neg,
            ite_true, ite_false, Option.getD_some] <;>
          constructor
        · intro hx; by_cases hxn : x = n
          · exact Or.inl ⟨h, hxn⟩
          · exact Or.inr hx
        · rintro (⟨-, rfl⟩ | hx)
          · exact hn
          · exact hx
        · intro hx
          rcases List.mem_append.mp hx with hx | hx
          · exact Or.inr hx
          · exact Or.inl ⟨h, List.mem_singleton.mp hx⟩
        · rintro (⟨-, rfl⟩ | hx)
          · exact List.mem_append.mpr (Or.inr (List.mem_singleton.mpr rfl))
          · exact List.mem_append.mpr (Or.inl hx)
      · simp only [addToGenre, if_pos rfl, lookup', if_neg h]
        constructor
        · intro hx; exact Or.inr hx
        · rintro (⟨rfl, -⟩ | hx)
          · exact absurd rfl h
          · exact hx
    · by_cases h : p.1 = g'
      · simp only [addToGenre, if_neg hp, lookup', if_pos h]
        constructor
        · intro hx; exact Or.inr hx
        · rintro (⟨rfl, -⟩ | hx)
          · exact absurd h hp
          · exact hx
      · simp only [addToGenre, if_neg hp, lookup', if_neg h]
        exact ih

/-- C9: every query operation (topMovies, topMoviesInGenre, topGenres,
userTopGenre, recommend) leaves all four store indexes unchanged; the
translated query bodies contain no store mutation, so the state-passing
semantics returns the input store. -/
theorem c9_queries_leave_store (st : DataStore) (q : Query) :
    (runQuery st q).1 = st := by
  cases q <;> rfl

/-- C4 (divergence witness): at the good-fixture store, `topMovies` with
the limit `n = -1 <= 0` returns four rows — Python's `items[:-1]` — instead
of the empty list required by the spec. -/
theorem c4_negative_limit_eval :
    rank_movies_by_average goodStore none (some (-1)) =
      [(mAlpha, 9/2, 2), (mFoxtrot, 9/2, 2), (mBravo, 4, 2), (mCharlie, 11/3, 3)] ∧
    rank_movies_by_average goodStore none (some (-1)) ≠ [] := by
  constructor
  · decide
  · decide

/-- C7: `meanRating` is absent exactly when the stored rating list is empty
or missing, and otherwise its value times the number of ratings equals the
sum of the ratings (the exact arithmetic mean). -/
theorem c7_meanRating (st : DataStore) (m : String) :
    (movie_average_rating st m = none ↔ (lookup' m st.ratings_by_movie).getD [] = []) ∧
    (∀ q, movie_average_rating st m = some q →
      (((lookup' m st.ratings_by_movie).getD []).length : ℚ) * q =
        ((lookup' m st.ratings_by_movie).getD []).sum ∧
      (lookup' m st.ratings_by_movie).getD [] ≠ []) := by
  constructor
  · by_cases h : (lookup' m st.ratings_by_movie).getD [] = [] <;>
      simp [movie_average_rating, h]
  · intro q hq
    by_cases h : (lookup' m st.ratings_by_movie).getD [] = []
    · simp [movie_average_rating, h] at hq
    · simp only [movie_average_rating, if_neg h, Option.some.injEq] at hq
      refine ⟨?_, h⟩
      have hlen : (((lookup' m st.ratings_by_movie).getD []).length : ℚ) ≠ 0 := by
        simpa [List.length_eq_zero] using h
      rw [← hq, listMean, mul_comm, div_mul_cancel₀ _ hlen]

/-- C7 witness: instantiated at the good-fixture store and `Charlie`, whose
mean rating is `11/3` over three ratings. -/
theorem c7_meanRating_witness :
    (((lookup' mCharlie goodStore.ratings_by_movie).getD []).length : ℚ) * (11/3) =
      ((lookup' mCharlie goodStore.ratings_by_movie).getD []).sum ∧
    (lookup' mCharlie goodStore.ratings_by_movie).getD [] ≠ [] :=
  (c7_meanRating goodStore mCharlie).2 (11/3) (by decide)

theorem mem_applyLimit {α : Type} (n : Option ℤ) (l : List α) (x : α)
    (hx : x ∈ applyLimit n l) : x ∈ l := by
  cases n with
  | none => exact hx
  | some n =>
    simp only [applyLimit, pyTake] at hx
    split_ifs at hx <;> exact List.take_subset _ _ hx

theorem rankItem_name {st : DataStore} {a : String} {x : String × ℚ × ℕ}
    (h : rankItem st a = some x) : x.1 = a := by
  simp only [rankItem] at h
  split_ifs at h
  exact (congrArg (fun y => y.1) (Option.some.inj h)).symm

/-- C3 amended: every movie returned by `topMoviesInGenre(g, n)` is listed
under `g` in `moviesByGenre` (with duplicate movie names in the movies
file, its current genre in `moviesByName` may nevertheless differ). -/
theorem c3_in_genre_listed (st : DataStore) (genre : String) (n : Option ℤ) :
    ∀ x ∈ rank_movies_in_genre st genre n,
      x.1 ∈ (lookup' genre st.movies_by_genre).getD [] := by
  intro x hx
  unfold rank_movies_in_genre at hx
  by_cases hg : (lookup' genre st.movies_by_genre).getD [] = []
  · rw [if_pos hg] at hx
    exact absurd hx (List.not_mem_nil x)
  · rw [if_neg hg] at hx
    unfold rank_movies_by_average at hx
    have hx2 := mem_applyLimit _ _ _ hx
    rw [List.mem_insertionSort] at hx2
    obtain ⟨a, ha, hra⟩ := List.mem_filterMap.mp hx2
    rw [rankItem_name hra]
    exact ha

/-- C3 counterexample: after loading two movie rows that reuse the name
`Xray` (first `Action`, then `Drama`) and one rating for it,
`topMoviesInGenre("Action")` returns `Xray` although its genre according to
`moviesByName` is `Drama`. -/
theorem c3_counterexample :
    ¬ (∀ ops genre n, ∀ x ∈ rank_movies_in_genre (runOps ops) genre n,
        ∃ mv, lookup' x.1 (runOps ops).movies_by_name = some mv ∧
          mv.genre = genre) := by
  intro h
  obtain ⟨mv, hmv, hg⟩ :=
    h dupOps gAction none (mXray, 4, 1) (by decide)
  have hx : lookup' (((mXray, (4:ℚ), (1:ℕ)) : String × ℚ × ℕ).1)
      (runOps dupOps).movies_by_name = some ⟨gDrama, i2, mXray⟩ := by decide
  injection hx.symm.trans hmv with h2
  rw [← h2] at hg
  exact absurd hg (by decide)

/-- C3 witness: the amended theorem applied at the duplicate-name store. -/
theorem c3_in_genre_listed_witness :
    ((mXray, (4:ℚ), (1:ℕ)) : String × ℚ × ℕ).1 ∈
      (lookup' gAction dupStore.movies_by_genre).getD [] :=
  c3_in_genre_listed dupStore gAction none (mXray, 4, 1) (by decide)

theorem collectRecs_cons (rated : List String) (genre : String) (k : ℤ)
    (x : String × ℚ × ℕ) (rest : List (String × ℚ × ℕ))
    (acc : List (String × ℚ × ℕ × String)) :
    collectRecs rated genre k (x :: rest) acc =
      if x.1 ∈ rated then collectRecs rated genre k rest acc
      else if k ≤ ((acc ++ [(x.1, x.2.1, x.2.2, genre)]).length : ℤ)
        then acc ++ [(x.1, x.2.1, x.2.2, genre)]
        else collectRecs rated genre k rest (acc ++ [(x.1, x.2.1, x.2.2, genre)]) :=
  rfl

theorem collectRecs_mono (rated : List String) (genre : String) (k : ℤ) :
    ∀ (l : List (String × ℚ × ℕ)) (acc : List (String × ℚ × ℕ × String)),
      ∃ tail, collectRecs rated genre k l acc = acc ++ tail ∧
        List.Sublist (tail.map (fun y => y.1)) (l.map (fun y => y.1)) ∧
        (∀ y ∈ tail, y.1 ∉ rated) ∧
        (∀ y ∈ tail, (y.1, y.2.1, y.2.2.1) ∈ l) := by
  intro l
  induction l with
  | nil =>
    intro acc
    exact ⟨[], by simp [collectRecs], by simp, by simp, by simp⟩
  | cons x rest ih =>
    intro acc
    by_cases hr : x.1 ∈ rated
    · obtain ⟨tail, h1, h2, h3, h4⟩ := ih acc
      refine ⟨tail, ?_, ?_, h3, ?_⟩
      · rw [collectRecs_cons, if_pos hr]
        exact h1
      · exact h2.trans (List.sublist_cons_self _ _)
      · intro y hy
        exact List.mem_cons_of_mem _ (h4 y hy)
    · by_cases hk : k ≤ ((acc ++ [(x.1, x.2.1, x.2.2, genre)]).length : ℤ)
      · refine ⟨[(x.1, x.2.1, x.2.2, genre)], ?_, ?_, ?_, ?_⟩
        · rw [collectRecs_cons, if_neg hr, if_pos hk]
        · simp
        · simpa using hr
        · simp
      · obtain ⟨tail, h1, h2, h3, h4⟩ := ih (acc ++ [(x.1, x.2.1, x.2.2, genre)])
        refine ⟨(x.1, x.2.1, x.2.2, genre) :: tail, ?_, ?_, ?_, ?_⟩
        · rw [collectRecs_cons, if_neg hr, if_neg hk, h1, List.append_assoc,
            List.singleton_append]
        · simpa using List.Sublist.cons₂ x.1 h2
        · intro y hy
          rcases List.mem_cons.mp hy with rfl | hy
          · exact hr
          · exact h3 y hy
        · intro y hy
          rcases List.mem_cons.mp hy with rfl | hy
          · exact List.mem_cons.mpr (Or.inl rfl)
          · exact List.mem_cons_of_mem _ (h4 y hy)

theorem collectRecs_length (rated : List String) (genre : String) (k : ℤ) :
    ∀ (l : List (String × ℚ × ℕ)) (acc : List (String × ℚ × ℕ × String)),
      (acc.length : ℤ) < k →
      ((collectRecs rated genre k l acc).length : ℤ) ≤ k := by
  intro l
  induction l with
  | nil =>
    intro acc h
    simpa [collectRecs] using le_of_lt h
  | cons x rest ih =>
    intro acc h
    by_cases hr : x.1 ∈ rated
    · rw [collectRecs_cons, if_pos hr]
      exact ih acc h
    · by_cases hk : k ≤ ((acc ++ [(x.1, x.2.1, x.2.2, genre)]).length : ℤ)
      · rw [collectRecs_cons, if_neg hr, if_pos hk]
        simp only [List.length_append, List.length_singleton]
        push_cast
        omega
      · rw [collectRecs_cons, if_neg hr, if_neg hk]
        exact ih _ (not_le.mp hk)

/-- C5 amended: for every store, user and `k >= 1`, `recommend(user, k)`
contains no movie the user has rated, has at most `k` entries, and lists
its entries in the order of the unlimited ranking of the user's top genre
(for `k <= 0` the loop appends one movie before testing the bound, so the
size bound fails there). -/
theorem c5_recommend_props (st : DataStore) (u : String) (k : ℤ)
    (hk : 1 ≤ k) : recommendProps st u k := by
  cases htop : user_top_genre st u with
  | none =>
    refine ⟨?_, ?_, ?_⟩
    · intro x hx
      simp [recommend_for_user, htop] at hx
    · simp only [recommend_for_user, htop]
      simpa using le_trans (by decide) hk
    · intro g s c hgsc
      rw [htop] at hgsc
      exact absurd hgsc (by simp)
  | some top =>
    obtain ⟨tail, h1, h2, h3, h4⟩ :=
      collectRecs_mono (((lookup' u st.user_ratings).getD []).map (fun q => q.1))
        top.1 k (rank_movies_in_genre st top.1 none) []
    have hrec : recommend_for_user st u k =
        collectRecs (((lookup' u st.user_ratings).getD []).map (fun q => q.1))
          top.1 k (rank_movies_in_genre st top.1 none) [] := by
      simp [recommend_for_user, htop]
    refine ⟨?_, ?_, ?_⟩
    · intro x hx
      rw [hrec, h1] at hx
      exact h3 x (by simpa using hx)
    · rw [hrec]
      exact collectRecs_length _ _ _ _ []
        (by simpa using lt_of_lt_of_le zero_lt_one hk)
    · intro g s c hgsc
      rw [htop] at hgsc
      have htop1 : top = (g, s, c) := Option.some.inj hgsc
      have hg1 : top.1 = g := by rw [htop1]
      rw [hrec, h1]
      simp only [List.nil_append]
      rw [← hg1]
      exact h2

/-- C5 counterexample: at the good-fixture store, `recommend(u1, 0)` returns
one movie (`Delta`), not at most `0`. -/
theorem c5_counterexample :
    ¬ (∀ ops u k, recommendProps (runOps ops) u k) := by
  intro h
  have h2 := (h goodOps u1 0).2.1
  have h3 : (recommend_for_user (runOps goodOps) u1 0).length = 1 := by decide
  rw [h3] at h2
  exact absurd h2 (by decide)

/-- C5 witness: the amended theorem at the good-fixture store with `k = 3`. -/
theorem c5_recommend_props_witness : recommendProps goodStore u1 3 :=
  c5_recommend_props goodStore u1 3 (by decide)

theorem update'_keys_nodup {V : Type} (k : String) (v : V)
    (l : List (String × V)) (h : (l.map (fun p => p.1)).Nodup) :
    ((update' k v l).map (fun p => p.1)).Nodup := by
  rw [update'_keys]
  split_ifs with hm
  · exact h
  · simp [List.nodup_append, h, hm]

theorem addUserRating_innerNodup (u m : String) (r : ℚ)
    (ur : List (String × List (String × ℚ)))
    (h : ∀ p ∈ ur, (p.2.map (fun q => q.1)).Nodup) :
    ∀ p ∈ addUserRating u m r ur, (p.2.map (fun q => q.1)).Nodup := by
  induction ur with
  | nil =>
    intro p hp
    simp only [addUserRating, List.mem_singleton] at hp
    subst hp
    simp
  | cons q t ih =>
    intro p hp
    simp only [addUserRating] at hp
    split_ifs at hp with hq
    · rcases List.mem_cons.mp hp with rfl | hp
      · exact update'_keys_nodup m r q.2 (h q (List.mem_cons_self _ _))
      · exact h p (List.mem_cons_of_mem _ hp)
    · rcases List.mem_cons.mp hp with rfl | hp
      · exact h p (List.mem_cons_self _ _)
      · exact ih (fun p hp => h p (List.mem_cons_of_mem _ hp)) p hp

theorem loadRatingsFold_innerNodup (rows : List (String × ℚ × String)) :
    ∀ (ur : List (String × List (String × ℚ))),
      (∀ p ∈ ur, (p.2.map (fun q => q.1)).Nodup) →
      ∀ p ∈ rows.foldl loadRatingsStep ur, (p.2.map (fun q => q.1)).Nodup := by
  induction rows with
  | nil => intro ur h; exact h
  | cons row rest ih =>
    intro ur h
    simp only [List.foldl_cons]
    unfold loadRatingsStep
    split_ifs with hacc
    · exact ih _ (addUserRating_innerNodup _ _ _ _ h)
    · exact ih _ h

theorem rbmStep_lookup_known (mbn : List (String × Movie)) (n : String)
    (hn : (lookup' n mbn).isSome) (d : List (String × ℚ)) :
    ∀ rbm, (lookup' n (d.foldl
        (fun rbm q =>
          if (lookup' q.1 mbn).isSome then appendRating q.1 q.2 rbm else rbm)
        rbm)).getD [] =
      (lookup' n rbm).getD [] ++
        d.filterMap (fun q => if q.1 = n then some q.2 else none) := by
  induction d with
  | nil => intro rbm; simp
  | cons q t ih =>
    intro rbm
    simp only [List.foldl_cons, List.filterMap_cons]
    by_cases hq : q.1 = n
    · subst hq
      rw [if_pos hn, ih, lookup'_appendRating, if_pos rfl]
      simp
    · have hlook : ∀ rbm', lookup' n (if (lookup' q.1 mbn).isSome
          then appendRating q.1 q.2 rbm' else rbm') = lookup' n rbm' := by
        intro rbm'
        split_ifs
        · rw [lookup'_appendRating, if_neg hq]
        · rfl
      rw [if_neg hq, ih, hlook]

theorem rbmStep_lookup_unknown (mbn : List (String × Movie)) (n : String)
    (hn : lookup' n mbn = none) (d : List (String × ℚ)) :
    ∀ rbm, lookup' n (d.foldl
        (fun rbm q =>
          if (lookup' q.1 mbn).isSome then appendRating q.1 q.2 rbm else rbm)
        rbm) = lookup' n rbm := by
  induction d with
  | nil => intro rbm; rfl
  | cons q t ih =>
    intro rbm
    simp only [List.foldl_cons]
    rw [ih]
    by_cases hq : q.1 = n
    · subst hq
      rw [hn]
      simp
    · split_ifs
      · rw [lookup'_appendRating, if_neg hq]
      · rfl

theorem buildRBM_lookup_known (mbn : List (String × Movie)) (n : String)
    (hn : (lookup' n mbn).isSome)
    (ur : List (String × List (String × ℚ))) :
    (lookup' n (buildRBM mbn ur)).getD [] =
      (ur.map (fun p =>
        p.2.filterMap (fun q => if q.1 = n then some q.2 else none))).join := by
  suffices hgen : ∀ rbm, (lookup' n (ur.foldl
      (fun rbm p => p.2.foldl
        (fun rbm q =>
          if (lookup' q.1 mbn).isSome then appendRating q.1 q.2 rbm else rbm)
        rbm)
      rbm)).getD [] =
      (lookup' n rbm).getD [] ++
        (ur.map (fun p =>
          p.2.filterMap (fun q => if q.1 = n then some q.2 else none))).join by
    have h := hgen []
    simpa [buildRBM, lookup'] using h
  induction ur with
  | nil => intro rbm; simp
  | cons p t ih =>
    intro rbm
    simp only [List.foldl_cons, List.map_cons, List.join_cons]
    rw [ih, rbmStep_lookup_known mbn n hn, List.append_assoc]

theorem buildRBM_lookup_unknown (mbn : List (String × Movie)) (n : String)
    (hn : lookup' n mbn = none)
    (ur : List (String × List (String × ℚ))) :
    lookup' n (buildRBM mbn ur) = none := by
  suffices hgen : ∀ rbm, lookup' n (ur.foldl
      (fun rbm p => p.2.foldl
        (fun rbm q =>
          if (lookup' q.1 mbn).isSome then appendRating q.1 q.2 rbm else rbm)
        rbm)
      rbm) = lookup' n rbm by
    have h := hgen []
    simpa [buildRBM, lookup'] using h
  induction ur with
  | nil => intro rbm; rfl
  | cons p t ih =>
    intro rbm
    simp only [List.foldl_cons]
    rw [ih, rbmStep_lookup_unknown mbn n hn]

theorem ratingsFor_eq_lookup (n : String) (d : List (String × ℚ))
    (hd : (d.map (fun q => q.1)).Nodup) :
    d.filterMap (fun q => if q.1 = n then some q.2 else none) =
      (lookup' n d).toList := by
  induction d with
  | nil => rfl
  | cons q t ih =>
    simp only [List.map_cons, List.nodup_cons] at hd
    simp only [List.filterMap_cons, lookup']
    by_cases hq : q.1 = n
    · rw [if_pos hq, if_pos hq]
      have ht : t.filterMap (fun q => if q.1 = n then some q.2 else none) = [] := by
        rw [List.filterMap_eq_nil_iff]
        intro a ha
        rw [if_neg]
        intro han
        exact hd.1 (by rw [hq, ← han]; exact List.mem_map_of_mem _ ha)
      simp [ht]
    · rw [if_neg hq, if_neg hq]
      exact ih hd.2

theorem join_ratingsFor (n : String) (ur : List (String × List (String × ℚ)))
    (h : ∀ p ∈ ur, (p.2.map (fun q => q.1)).Nodup) :
    (ur.map (fun p =>
      p.2.filterMap (fun q => if q.1 = n then some q.2 else none))).join =
      ur.filterMap (fun p => lookup' n p.2) := by
  induction ur with
  | nil => rfl
  | cons p t ih =>
    simp only [List.map_cons, List.join_cons, List.filterMap_cons]
    rw [ratingsFor_eq_lookup n p.2 (h p (List.mem_cons_self _ _))]
    cases hp : lookup' n p.2 with
    | none => simpa using ih (fun p hp => h p (List.mem_cons_of_mem _ hp))
    | some v => simpa using ih (fun p hp => h p (List.mem_cons_of_mem _ hp))

theorem load_ratings_invariant (rows : List (String × ℚ × String))
    (st : DataStore) : ratingsInvariant (load_ratings_file rows st).1 := by
  have hmbn : (load_ratings_file rows st).1.movies_by_name = st.movies_by_name := rfl
  have hur : (load_ratings_file rows st).1.user_ratings =
      rows.foldl loadRatingsStep [] := rfl
  have hrbm : (load_ratings_file rows st).1.ratings_by_movie =
      buildRBM st.movies_by_name (rows.foldl loadRatingsStep []) := rfl
  have hnodup : ∀ p ∈ rows.foldl loadRatingsStep [],
      (p.2.map (fun q => q.1)).Nodup :=
    loadRatingsFold_innerNodup rows [] (by simp)
  constructor
  · intro n
    rw [derivedRatings, hmbn, hur, hrbm]
    by_cases hn : (lookup' n st.movies_by_name).isSome
    · rw [if_pos hn, buildRBM_lookup_known st.movies_by_name n hn,
        join_ratingsFor n _ hnodup]
    · rw [if_neg hn,
        buildRBM_lookup_unknown st.movies_by_name n
          (Option.not_isSome_iff_eq_none.mp hn)]
      rfl
  · intro n hnone
    rw [hrbm]
    rw [hmbn] at hnone
    exact buildRBM_lookup_unknown st.movies_by_name n hnone _

theorem clear_invariant (st : DataStore) :
    ratingsInvariant (DataStore.clear st) := by
  constructor
  · intro n
    simp [DataStore.clear, emptyStore, lookup', derivedRatings]
  · intro n _
    rfl

/-- C1 amended: the `ratingsByMovie` invariant — each entry is exactly the
multiset of its users' ratings restricted to known movies, and unknown
movies have no entry — holds after every operation sequence ending in
`loadRatings` or `clear` (in particular after the canonical movies-then-
ratings load order); a `loadMovies` that follows a `loadRatings` can break
it, because nothing re-derives `ratingsByMovie` on a movie load alone. -/
theorem c1_invariant_after_load (ops : List Op) (op : Op)
    (h : (∃ rows, op = Op.loadRatings rows) ∨ op = Op.clear) :
    ratingsInvariant (runOps (ops ++ [op])) := by
  have hstep : runOps (ops ++ [op]) = applyOp (runOps ops) op := by
    rw [runOps, List.foldl_append]
    rfl
  rw [hstep]
  rcases h with ⟨rows, rfl⟩ | rfl
  · exact load_ratings_invariant rows (runOps ops)
  · exact clear_invariant (runOps ops)

/-- C1 counterexample: load a movie and a rating for it, then reload the
movies file without that movie: `ratingsByMovie` keeps its stale entry for
`Alpha` although `Alpha` is no longer in `moviesByName`, so the invariant
does not hold after arbitrary operation sequences. -/
theorem c1_counterexample : ¬ (∀ ops, ratingsInvariant (runOps ops)) := by
  intro h
  have h2 := (h staleOps).2 mAlpha (by decide)
  have h3 : lookup' mAlpha (runOps staleOps).ratings_by_movie =
      some [(3:ℚ)] := by decide
  rw [h2] at h3
  exact Option.noConfusion h3

/-- C1 witness: the amended theorem at the fixture loads (movies file, then
ratings file). -/
theorem c1_invariant_witness :
    ratingsInvariant
      (runOps ([Op.loadMovies fixtureMovies] ++ [Op.loadRatings fixtureRatings])) :=
  c1_invariant_after_load [Op.loadMovies fixtureMovies]
    (Op.loadRatings fixtureRatings) (Or.inl ⟨fixtureRatings, rfl⟩)

theorem update'_length {V : Type} (k : String) (v : V) (l : List (String × V)) :
    (update' k v l).length =
      if k ∈ l.map (fun p => p.1) then l.length else l.length + 1 := by
  by_cases hm : k ∈ l.map (fun p => p.1)
  · have h := congrArg List.length (update'_keys k v l)
    rw [if_pos hm] at h
    simp only [List.length_map] at h
    rw [if_pos hm]
    exact h
  · have h := congrArg List.length (update'_keys k v l)
    rw [if_neg hm] at h
    simp only [List.length_map, List.length_append, List.length_singleton] at h
    rw [if_neg hm]
    exact h

theorem pairMem_addUserRating (u m : String) (r : ℚ)
    (ur : List (String × List (String × ℚ))) (u' m' : String) :
    pairMem u' m' (addUserRating u m r ur) ↔
      (u' = u ∧ m' = m) ∨ pairMem u' m' ur := by
  unfold pairMem
  rw [lookup'_addUserRating]
  by_cases hu : u = u'
  · subst hu
    rw [if_pos rfl]
    simp only [Option.getD_some]
    rw [update'_keys]
    by_cases hm : m ∈ ((lookup' u ur).getD []).map (fun q => q.1)
    · rw [if_pos hm]
      constructor
      · exact fun h => Or.inr h
      · rintro (⟨-, rfl⟩ | h)
        · exact hm
        · exact h
    · rw [if_neg hm]
      simp only [List.mem_append, List.mem_singleton, true_and]
      exact or_comm
  · rw [if_neg hu]
    have hu' : ¬ u' = u := fun h => hu h.symm
    simp [hu']

theorem sumInner_cons (p : String × List (String × ℚ))
    (t : List (String × List (String × ℚ))) :
    sumInner (p :: t) = p.2.length + sumInner t := by
  simp [sumInner]

theorem sumInner_addUserRating (u m : String) (r : ℚ)
    (ur : List (String × List (String × ℚ))) :
    sumInner (addUserRating u m r ur) =
      if pairMem u m ur then sumInner ur else sumInner ur + 1 := by
  induction ur with
  | nil =>
    simp [addUserRating, sumInner, pairMem, lookup']
  | cons p t ih =>
    by_cases hp : p.1 = u
    · have hl : lookup' u (p :: t) = some p.2 := by simp [lookup', hp]
      have hpm : pairMem u m (p :: t) ↔ m ∈ p.2.map (fun q => q.1) := by
        unfold pairMem
        rw [hl]
        rfl
      simp only [addUserRating, if_pos hp]
      by_cases hm : m ∈ p.2.map (fun q => q.1)
      · rw [if_pos (hpm.mpr hm), sumInner_cons, sumInner_cons, update'_length,
          if_pos hm]
      · rw [if_neg (fun hc => hm (hpm.mp hc)), sumInner_cons, sumInner_cons,
          update'_length, if_neg hm]
        omega
    · have hl : lookup' u (p :: t) = lookup' u t := by simp [lookup', hp]
      have hpm : pairMem u m (p :: t) ↔ pairMem u m t := by
        unfold pairMem
        rw [hl]
      simp only [addUserRating, if_neg hp]
      rw [sumInner_cons, ih]
      by_cases hm : pairMem u m t
      · rw [if_pos hm, if_pos (hpm.mpr hm), sumInner_cons]
      · rw [if_neg hm, if_neg (fun hc => hm (hpm.mp hc)), sumInner_cons]
        omega

theorem loadRatingsFold_rel (rows : List (String × ℚ × String)) :
    ∀ (ur : List (String × List (String × ℚ))) (s : Finset (String × String)),
      (∀ u m, pairMem u m ur ↔ (u, m) ∈ s) → sumInner ur = s.card →
      (∀ u m, pairMem u m (rows.foldl loadRatingsStep ur) ↔
          (u, m) ∈ s ∪ ((rows.filter acceptRB).map pairOf).toFinset) ∧
      sumInner (rows.foldl loadRatingsStep ur) =
        (s ∪ ((rows.filter acceptRB).map pairOf).toFinset).card := by
  induction rows with
  | nil =>
    intro ur s h1 h2
    simp only [List.foldl_nil, List.filter_nil, List.map_nil, List.toFinset_nil,
      Finset.union_empty]
    exact ⟨h1, h2⟩
  | cons row rest ih =>
    intro ur s h1 h2
    simp only [List.foldl_cons]
    by_cases hacc : 0 ≤ row.2.1 ∧ row.2.1 ≤ 5
    · have hstep : loadRatingsStep ur row = addUserRating row.2.2 row.1 row.2.1 ur := by
        unfold loadRatingsStep
        rw [if_pos hacc]
      have hfilter : (row :: rest).filter acceptRB = row :: rest.filter acceptRB := by
        simp [List.filter_cons, acceptRB, hacc]
      have h1' : ∀ u m, pairMem u m (addUserRating row.2.2 row.1 row.2.1 ur) ↔
          (u, m) ∈ insert (pairOf row) s := by
        intro u m
        rw [pairMem_addUserRating, h1, Finset.mem_insert]
        unfold pairOf
        rw [Prod.mk.injEq]
      have h2' : sumInner (addUserRating row.2.2 row.1 row.2.1 ur) =
          (insert (pairOf row) s).card := by
        rw [sumInner_addUserRating]
        by_cases hmem : pairMem row.2.2 row.1 ur
        · have hin : pairOf row ∈ s := (h1 _ _).mp hmem
          rw [if_pos hmem, h2, Finset.insert_eq_self.mpr hin]
        · have hout : pairOf row ∉ s := fun hc => hmem ((h1 _ _).mpr hc)
          rw [if_neg hmem, h2, Finset.card_insert_of_not_mem hout]
      obtain ⟨ha, hb⟩ := ih _ _ h1' h2'
      have hun : insert (pairOf row) s ∪ ((rest.filter acceptRB).map pairOf).toFinset =
          s ∪ (((row :: rest).filter acceptRB).map pairOf).toFinset := by
        rw [hfilter]
        simp only [List.map_cons, List.toFinset_cons, Finset.insert_union,
          Finset.union_insert]
      rw [hstep]
      rw [hun] at ha hb
      exact ⟨ha, hb⟩
    · have hstep : loadRatingsStep ur row = ur := by
        unfold loadRatingsStep
        rw [if_neg hacc]
      have hfilter : (row :: rest).filter acceptRB = rest.filter acceptRB := by
        simp [List.filter_cons, acceptRB, hacc]
      rw [hstep, hfilter]
      exact ih ur s h1 h2

/-- C6: `loadRatings` returns the number of distinct `(user, movie)` pairs
among the accepted rows — duplicates of a pair are counted once
(last-write-wins), and pairs whose movie is unknown are included. -/
theorem c6_load_ratings_count (rows : List (String × ℚ × String))
    (st : DataStore) :
    (load_ratings_file rows st).2 =
      (((rows.filter acceptRB).map pairOf).toFinset).card := by
  have h := (loadRatingsFold_rel rows [] ∅
    (by intro u m; simp [pairMem, lookup'])
    (by simp [sumInner])).2
  rw [Finset.empty_union] at h
  exact h

theorem loadMoviesFold_consistent (rows : List (String × String × String)) :
    ∀ (acc : DataStore × ℕ), genreConsistent acc.1 →
      genreConsistent (rows.foldl loadMoviesStep acc).1 := by
  induction rows with
  | nil => intro acc h; exact h
  | cons row rest ih =>
    intro acc h
    simp only [List.foldl_cons]
    apply ih
    unfold loadMoviesStep
    split_ifs with hbad
    · exact h
    · intro n mv hl
      simp only at hl ⊢
      by_cases hn : n = row.2.2
      · subst hn
        rw [lookup'_update'_self] at hl
        injection hl with h2
        rw [← h2]
        exact (mem_addToGenre _ _ _ _ _).mpr (Or.inl ⟨rfl, rfl⟩)
      · rw [lookup'_update'_ne _ _ _ _ hn] at hl
        exact (mem_addToGenre _ _ _ _ _).mpr (Or.inr (h n mv hl))

theorem applyOp_genreConsistent (st : DataStore) (op : Op)
    (h : genreConsistent st) : genreConsistent (applyOp st op) := by
  cases op with
  | loadMovies rows =>
    apply loadMoviesFold_consistent
    intro n mv hl
    exact absurd hl (by simp [lookup'])
  | loadRatings rows =>
    intro n mv hl
    exact h n mv hl
  | clear =>
    intro n mv hl
    exact absurd hl (by simp [DataStore.clear, emptyStore, lookup'])

/-- C2 amended: after any operation sequence, `moviesByGenre` contains at
least the index derived from `moviesByName` — whenever `moviesByName[n]`
has genre `g`, `n` is listed under `g` (so every genre with a current movie
has an entry); but a later row reusing a name with a different genre leaves
the name additionally listed under the old genre, so the containment can be
strict and entries do not disappear. -/
theorem c2_genre_superset (ops : List Op) : genreConsistent (runOps ops) := by
  suffices h : ∀ (l : List Op) (st : DataStore), genreConsistent st →
      genreConsistent (l.foldl applyOp st) by
    exact h ops emptyStore
      (fun n mv hl => absurd hl (by simp [emptyStore, lookup']))
  intro l
  induction l with
  | nil => intro st h; exact h
  | cons op rest ih =>
    intro st h
    exact ih _ (applyOp_genreConsistent st op h)

/-- C2 counterexample: after loading `Action|m1|Xray` then `Drama|m2|Xray`,
the name `Xray` is still a member of `moviesByGenre["Action"]` although
`moviesByName["Xray"].genre = "Drama"`, so `moviesByGenre` is not the index
derived from `moviesByName`. -/
theorem c2_counterexample : ¬ (∀ ops, genreDerived (runOps ops)) := by
  intro h
  obtain ⟨mv, hmv, hg⟩ := ((h dupOps).1 gAction mXray).mp (by decide)
  have hx : lookup' mXray (runOps dupOps).movies_by_name =
      some ⟨gDrama, i2, mXray⟩ := by decide
  injection hx.symm.trans hmv with h2
  rw [← h2] at hg
  exact absurd hg (by decide)

/-- C2 witness: the amended containment at the duplicate-name store. -/
theorem c2_genre_superset_witness :
    mXray ∈ (lookup' (Movie.genre ⟨gDrama, i2, mXray⟩)
      dupStore.movies_by_genre).getD [] :=
  c2_genre_superset dupOps mXray ⟨gDrama, i2, mXray⟩ (by decide)

theorem lookup'_mem {V : Type} (k : String) (v : V) :
    ∀ l : List (String × V), lookup' k l = some v → (k, v) ∈ l := by
  intro l
  induction l with
  | nil => intro h; exact absurd h (by simp [lookup'])
  | cons p t ih =>
    intro h
    simp only [lookup'] at h
    split_ifs at h with hp
    · have hv := Option.some.inj h
      rw [← hp, ← hv]
      exact List.mem_cons_self _ _
    · exact List.mem_cons_of_mem _ (ih h)

theorem update'_mem {V : Type} (q : String × V) (k : String) (v : V) :
    ∀ l : List (String × V), q ∈ update' k v l → q = (k, v) ∨ q ∈ l := by
  intro l
  induction l with
  | nil =>
    intro h
    simp only [update', List.mem_singleton] at h
    exact Or.inl h
  | cons p t ih =>
    intro h
    simp only [update'] at h
    split_ifs at h with hp
    · rcases List.mem_cons.mp h with rfl | h
      · exact Or.inl (by rw [hp])
      · exact Or.inr (List.mem_cons_of_mem _ h)
    · rcases List.mem_cons.mp h with rfl | h
      · exact Or.inr (List.mem_cons_self _ _)
      · rcases ih h with h | h
        · exact Or.inl h
        · exact Or.inr (List.mem_cons_of_mem _ h)

theorem appendRating_forall (P : ℚ → Prop) (m : String) (r : ℚ)
    (rbm : List (String × List ℚ)) (hr : P r)
    (h : ∀ p ∈ rbm, ∀ x ∈ p.2, P x) :
    ∀ p ∈ appendRating m r rbm, ∀ x ∈ p.2, P x := by
  induction rbm with
  | nil =>
    intro p hp
    simp only [appendRating, List.mem_singleton] at hp
    subst hp
    intro x hx
    rw [List.mem_singleton.mp hx]
    exact hr
  | cons pp t ih =>
    intro p hp
    simp only [appendRating] at hp
    split_ifs at hp with hpp
    · rcases List.mem_cons.mp hp with rfl | hp
      · intro x hx
        rcases List.mem_append.mp hx with hx | hx
        · exact h pp (List.mem_cons_self _ _) x hx
        · rw [List.mem_singleton.mp hx]
          exact hr
      · exact h p (List.mem_cons_of_mem _ hp)
    · rcases List.mem_cons.mp hp with rfl | hp
      · exact h p (List.mem_cons_self _ _)
      · exact ih (fun p hp => h p (List.mem_cons_of_mem _ hp)) p hp

theorem appendRating_nonempty (m : String) (r : ℚ)
    (rbm : List (String × List ℚ)) (h : ∀ p ∈ rbm, p.2 ≠ []) :
    ∀ p ∈ appendRating m r rbm, p.2 ≠ [] := by
  induction rbm with
  | nil =>
    intro p hp
    simp only [appendRating, List.mem_singleton] at hp
    subst hp
    simp
  | cons pp t ih =>
    intro p hp
    simp only [appendRating] at hp
    split_ifs at hp with hpp
    · rcases List.mem_cons.mp hp with rfl | hp
      · simp
      · exact h p (List.mem_cons_of_mem _ hp)
    · rcases List.mem_cons.mp hp with rfl | hp
      · exact h p (List.mem_cons_self _ _)
      · exact ih (fun p hp => h p (List.mem_cons_of_mem _ hp)) p hp

theorem addUserRating_forall (P : ℚ → Prop) (u m : String) (r : ℚ)
    (ur : List (String × List (String × ℚ))) (hr : P r)
    (h : ∀ p ∈ ur, ∀ q ∈ p.2, P q.2) :
    ∀ p ∈ addUserRating u m r ur, ∀ q ∈ p.2, P q.2 := by
  induction ur with
  | nil =>
    intro p hp
    simp only [addUserRating, List.mem_singleton] at hp
    subst hp
    intro q hq
    rw [List.mem_singleton.mp hq]
    exact hr
  | cons pp t ih =>
    intro p hp
    simp only [addUserRating] at hp
    split_ifs at hp with hpp
    · rcases List.mem_cons.mp hp with rfl | hp
      · intro q hq
        rcases update'_mem q m r pp.2 hq with rfl | hq
        · exact hr
        · exact h pp (List.mem_cons_self _ _) q hq
      · exact h p (List.mem_cons_of_mem _ hp)
    · rcases List.mem_cons.mp hp with rfl | hp
      · exact h p (List.mem_cons_self _ _)
      · exact ih (fun p hp => h p (List.mem_cons_of_mem _ hp)) p hp

theorem urFold_range (rows : List (String × ℚ × String)) :
    ∀ ur, (∀ p ∈ ur, ∀ q ∈ p.2, 0 ≤ q.2 ∧ q.2 ≤ 5) →
      ∀ p ∈ rows.foldl loadRatingsStep ur, ∀ q ∈ p.2, 0 ≤ q.2 ∧ q.2 ≤ 5 := by
  induction rows with
  | nil => intro ur h; exact h
  | cons row rest ih =>
    intro ur h
    simp only [List.foldl_cons]
    unfold loadRatingsStep
    split_ifs with hacc
    · exact ih _ (addUserRating_forall (fun x => 0 ≤ x ∧ x ≤ 5)
        row.2.2 row.1 row.2.1 ur hacc h)
    · exact ih _ h

theorem innerFold_range (mbn : List (String × Movie)) :
    ∀ (d : List (String × ℚ)), (∀ q ∈ d, 0 ≤ q.2 ∧ q.2 ≤ 5) →
      ∀ (rbm : List (String × List ℚ)),
      (∀ p ∈ rbm, ∀ x ∈ p.2, 0 ≤ x ∧ x ≤ 5) →
      ∀ p ∈ d.foldl
        (fun rbm q =>
          if (lookup' q.1 mbn).isSome then appendRating q.1 q.2 rbm else rbm)
        rbm, ∀ x ∈ p.2, 0 ≤ x ∧ x ≤ 5 := by
  intro d
  induction d with
  | nil => intro _ rbm h; exact h
  | cons q t ih =>
    intro hd rbm h
    simp only [List.foldl_cons]
    apply ih (fun q' hq' => hd q' (List.mem_cons_of_mem _ hq'))
    split_ifs
    · exact appendRating_forall (fun x => 0 ≤ x ∧ x ≤ 5) _ _ _
        (hd q (List.mem_cons_self _ _)) h
    · exact h

theorem buildRBM_range (mbn : List (String × Movie))
    (ur : List (String × List (String × ℚ)))
    (h : ∀ p ∈ ur, ∀ q ∈ p.2, 0 ≤ q.2 ∧ q.2 ≤ 5) :
    ∀ p ∈ buildRBM mbn ur, ∀ x ∈ p.2, 0 ≤ x ∧ x ≤ 5 := by
  suffices hgen : ∀ (l : List (String × List (String × ℚ))),
      (∀ p ∈ l, ∀ q ∈ p.2, 0 ≤ q.2 ∧ q.2 ≤ 5) →
      ∀ (rbm : List (String × List ℚ)),
      (∀ p ∈ rbm, ∀ x ∈ p.2, 0 ≤ x ∧ x ≤ 5) →
      ∀ p ∈ l.foldl
        (fun rbm p => p.2.foldl
          (fun rbm q =>
            if (lookup' q.1 mbn).isSome then appendRating q.1 q.2 rbm else rbm)
          rbm) rbm, ∀ x ∈ p.2, 0 ≤ x ∧ x ≤ 5 by
    exact hgen ur h [] (by simp)
  intro l
  induction l with
  | nil => intro _ rbm hrbm; exact hrbm
  | cons p t ih =>
    intro hl rbm hrbm
    simp only [List.foldl_cons]
    apply ih (fun p hp => hl p (List.mem_cons_of_mem _ hp))
    exact innerFold_range mbn p.2 (hl p (List.mem_cons_self _ _)) rbm hrbm

theorem loadMoviesFold_rating_fields (rows : List (String × String × String)) :
    ∀ acc : DataStore × ℕ,
      (rows.foldl loadMoviesStep acc).1.ratings_by_movie = acc.1.ratings_by_movie ∧
      (rows.foldl loadMoviesStep acc).1.user_ratings = acc.1.user_ratings := by
  induction rows with
  | nil => intro acc; exact ⟨rfl, rfl⟩
  | cons row rest ih =>
    intro acc
    simp only [List.foldl_cons]
    have h := ih (loadMoviesStep acc row)
    have hstep : (loadMoviesStep acc row).1.ratings_by_movie = acc.1.ratings_by_movie ∧
        (loadMoviesStep acc row).1.user_ratings = acc.1.user_ratings := by
      unfold loadMoviesStep
      split_ifs <;> exact ⟨rfl, rfl⟩
    exact ⟨h.1.trans hstep.1, h.2.trans hstep.2⟩

theorem applyOp_range (st : DataStore) (op : Op) (h : ratingsInRange st) :
    ratingsInRange (applyOp st op) := by
  cases op with
  | loadMovies rows =>
    have hf := loadMoviesFold_rating_fields rows
      ({ st with movies_by_name := [], movies_by_genre := [] }, 0)
    constructor
    · intro u d hud
      rw [show (applyOp st (Op.loadMovies rows)).user_ratings = st.user_ratings
        from hf.2] at hud
      exact h.1 u d hud
    · intro m l hml
      rw [show (applyOp st (Op.loadMovies rows)).ratings_by_movie = st.ratings_by_movie
        from hf.1] at hml
      exact h.2 m l hml
  | loadRatings rows =>
    have hur : ∀ p ∈ rows.foldl loadRatingsStep [], ∀ q ∈ p.2, 0 ≤ q.2 ∧ q.2 ≤ 5 :=
      urFold_range rows [] (by simp)
    constructor
    · intro u d hud
      exact fun q hq => hur (u, d) (lookup'_mem u d _ hud) q hq
    · intro m l hml
      exact fun r hr =>
        buildRBM_range st.movies_by_name _ hur (m, l) (lookup'_mem m l _ hml) r hr
  | clear =>
    constructor
    · intro u d hud
      exact absurd hud (by simp [DataStore.clear, emptyStore, lookup'])
    · intro m l hml
      exact absurd hml (by simp [DataStore.clear, emptyStore, lookup'])

theorem runOps_range (ops : List Op) : ratingsInRange (runOps ops) := by
  suffices h : ∀ (l : List Op) (st : DataStore), ratingsInRange st →
      ratingsInRange (l.foldl applyOp st) by
    refine h ops emptyStore ⟨?_, ?_⟩ <;>
      intro a b hab <;> exact absurd hab (by simp [emptyStore, lookup'])
  intro l
  induction l with
  | nil => intro st h; exact h
  | cons op rest ih =>
    intro st h
    exact ih _ (applyOp_range st op h)

theorem listMean_range (l : List ℚ) (hne : l ≠ [])
    (h : ∀ x ∈ l, 0 ≤ x ∧ x ≤ 5) : 0 ≤ listMean l ∧ listMean l ≤ 5 := by
  have hlen : 0 < (l.length : ℚ) := by
    have := List.length_pos.mpr hne
    exact_mod_cast this
  constructor
  · exact div_nonneg (List.sum_nonneg (fun x hx => (h x hx).1)) hlen.le
  · rw [listMean, div_le_iff hlen]
    calc l.sum ≤ l.length • (5:ℚ) :=
          List.sum_le_card_nsmul l 5 (fun x hx => (h x hx).2)
    _ = 5 * l.length := by rw [nsmul_eq_mul]; ring

theorem getD_eq_of_ne_nil {m : String} {st : DataStore}
    (hl : (lookup' m st.ratings_by_movie).getD [] ≠ []) :
    lookup' m st.ratings_by_movie = some ((lookup' m st.ratings_by_movie).getD []) := by
  cases hlk : lookup' m st.ratings_by_movie with
  | none =>
    rw [hlk] at hl
    simp at hl
  | some l => rfl

theorem rankItem_range (st : DataStore) (h : ratingsInRange st)
    (name : String) (x : String × ℚ × ℕ) (hx : rankItem st name = some x) :
    0 ≤ x.2.1 ∧ x.2.1 ≤ 5 := by
  simp only [rankItem] at hx
  split_ifs at hx with hl
  have hx' := Option.some.inj hx
  have hsome := getD_eq_of_ne_nil hl
  have hrange := h.2 name _ hsome
  have hm := listMean_range _ hl hrange
  rw [← hx']
  exact hm

theorem rank_movies_range (st : DataStore) (h : ratingsInRange st)
    (names : Option (List String)) (n : Option ℤ) :
    ∀ x ∈ rank_movies_by_average st names n, 0 ≤ x.2.1 ∧ x.2.1 ≤ 5 := by
  intro x hx
  unfold rank_movies_by_average at hx
  have hx2 := mem_applyLimit _ _ _ hx
  rw [List.mem_insertionSort] at hx2
  obtain ⟨a, -, hra⟩ := List.mem_filterMap.mp hx2
  exact rankItem_range st h a x hra

theorem rank_in_genre_range (st : DataStore) (h : ratingsInRange st)
    (g : String) (n : Option ℤ) :
    ∀ x ∈ rank_movies_in_genre st g n, 0 ≤ x.2.1 ∧ x.2.1 ≤ 5 := by
  intro x hx
  simp only [rank_movies_in_genre] at hx
  split_ifs at hx
  · exact absurd hx (List.not_mem_nil x)
  · exact rank_movies_range st h _ n x hx

theorem movie_average_range (st : DataStore) (h : ratingsInRange st)
    (m : String) (q : ℚ) (hq : movie_average_rating st m = some q) :
    0 ≤ q ∧ q ≤ 5 := by
  simp only [movie_average_rating] at hq
  split_ifs at hq with hl
  have hq' := Option.some.inj hq
  have hsome := getD_eq_of_ne_nil hl
  have hrange := h.2 m _ hsome
  rw [← hq']
  exact listMean_range _ hl hrange

theorem rank_genres_range (st : DataStore) (h : ratingsInRange st)
    (n : Option ℤ) :
    ∀ x ∈ rank_genres_by_popularity st n, 0 ≤ x.2.1 ∧ x.2.1 ≤ 5 := by
  intro x hx
  unfold rank_genres_by_popularity at hx
  have hx2 := mem_applyLimit _ _ _ hx
  rw [List.mem_insertionSort] at hx2
  obtain ⟨p, -, hgr⟩ := List.mem_filterMap.mp hx2
  simp only [genreRow] at hgr
  split_ifs at hgr with havgs
  have hx' := Option.some.inj hgr
  have hbound : ∀ v ∈ p.2.filterMap (movie_average_rating st), 0 ≤ v ∧ v ≤ 5 := by
    intro v hv
    obtain ⟨nm, -, hnm⟩ := List.mem_filterMap.mp hv
    exact movie_average_range st h nm v hnm
  have hm := listMean_range _ havgs hbound
  rw [← hx']
  exact hm

theorem head?_mem' {α : Type} (l : List α) (a : α) (h : l.head? = some a) :
    a ∈ l := by
  cases l with
  | nil => exact absurd h (by simp)
  | cons x t =>
    simp only [List.head?_cons, Option.some.injEq] at h
    rw [← h]
    exact List.mem_cons_self _ _

theorem user_top_genre_range (st : DataStore) (h : ratingsInRange st)
    (u g : String) (s : ℚ) (c : ℕ)
    (hu : user_top_genre st u = some (g, s, c)) : 0 ≤ s ∧ s ≤ 5 := by
  cases hpu : lookup' u st.user_ratings with
  | none =>
    rw [user_top_genre, hpu] at hu
    exact absurd hu (by simp)
  | some per_user =>
    rw [user_top_genre] at hu
    rw [hpu] at hu
    simp only [] at hu
    split_ifs at hu with hemp hbg
    have hq : ∀ q ∈ per_user, 0 ≤ q.2 ∧ q.2 ≤ 5 := h.1 u per_user hpu
    have hvals : ∀ p ∈ per_user.foldl
        (fun bg q =>
          match lookup' q.1 st.movies_by_name with
          | none => bg
          | some movie => appendRating movie.genre q.2 bg) [],
        (∀ x ∈ p.2, 0 ≤ x ∧ x ≤ 5) ∧ p.2 ≠ [] := by
      suffices hgen : ∀ (d : List (String × ℚ)),
          (∀ q ∈ d, 0 ≤ q.2 ∧ q.2 ≤ 5) →
          ∀ (bg : List (String × List ℚ)),
          (∀ p ∈ bg, (∀ x ∈ p.2, 0 ≤ x ∧ x ≤ 5) ∧ p.2 ≠ []) →
          ∀ p ∈ d.foldl
            (fun bg q =>
              match lookup' q.1 st.movies_by_name with
              | none => bg
              | some movie => appendRating movie.genre q.2 bg) bg,
          (∀ x ∈ p.2, 0 ≤ x ∧ x ≤ 5) ∧ p.2 ≠ [] by
        exact hgen per_user hq [] (by simp)
      intro d
      induction d with
      | nil => intro _ bg hbg'; exact hbg'
      | cons q t ihd =>
        intro hd bg hbg'
        simp only [List.foldl_cons]
        apply ihd (fun q hq' => hd q (List.mem_cons_of_mem _ hq'))
        cases hlk : lookup' q.1 st.movies_by_name with
        | none => exact hbg'
        | some movie =>
          intro p hp
          constructor
          · exact appendRating_forall _ _ _ _
              (hd q (List.mem_cons_self _ _)) (fun p hp => (hbg' p hp).1) p hp
          · exact appendRating_nonempty _ _ _ (fun p hp => (hbg' p hp).2) p hp
    have hmem := head?_mem' _ _ hu
    rw [List.mem_insertionSort] at hmem
    obtain ⟨p, hp, hpe⟩ := List.mem_map.mp hmem
    have hs : s = listMean p.2 := by
      have := (Prod.mk.injEq _ _ _ _).mp hpe
      exact (((Prod.mk.injEq _ _ _ _).mp this.2).1).symm
    rw [hs]
    exact listMean_range _ (hvals p hp).2 (fun x hx => (hvals p hp).1 x hx)

theorem recommend_range (st : DataStore) (h : ratingsInRange st)
    (u : String) (k : ℤ) :
    ∀ x ∈ recommend_for_user st u k, 0 ≤ x.2.1 ∧ x.2.1 ≤ 5 := by
  intro x hx
  cases htop : user_top_genre st u with
  | none => simp [recommend_for_user, htop] at hx
  | some top =>
    have hrec : recommend_for_user st u k =
        collectRecs (((lookup' u st.user_ratings).getD []).map (fun q => q.1))
          top.1 k (rank_movies_in_genre st top.1 none) [] := by
      simp [recommend_for_user, htop]
    obtain ⟨tail, h1, -, -, h4⟩ :=
      collectRecs_mono (((lookup' u st.user_ratings).getD []).map (fun q => q.1))
        top.1 k (rank_movies_in_genre st top.1 none) []
    rw [hrec, h1] at hx
    have hx' : x ∈ tail := by simpa using hx
    have hmem := h4 x hx'
    exact rank_in_genre_range st h top.1 none _ hmem

/-- C10: after any operation sequence, every rating stored in `userRatings`
or `ratingsByMovie` is in `[0, 5]`, and consequently every mean rating and
genre score in any query result is in `[0, 5]`. -/
theorem c10_all_in_range (ops : List Op) :
    ratingsInRange (runOps ops) ∧
    (∀ names n, ∀ x ∈ rank_movies_by_average (runOps ops) names n,
        0 ≤ x.2.1 ∧ x.2.1 ≤ 5) ∧
    (∀ g n, ∀ x ∈ rank_movies_in_genre (runOps ops) g n,
        0 ≤ x.2.1 ∧ x.2.1 ≤ 5) ∧
    (∀ n, ∀ x ∈ rank_genres_by_popularity (runOps ops) n,
        0 ≤ x.2.1 ∧ x.2.1 ≤ 5) ∧
    (∀ u g s c, user_top_genre (runOps ops) u = some (g, s, c) →
        0 ≤ s ∧ s ≤ 5) ∧
    (∀ u k, ∀ x ∈ recommend_for_user (runOps ops) u k,
        0 ≤ x.2.1 ∧ x.2.1 ≤ 5) := by
  have h := runOps_range ops
  exact ⟨h,
    fun names n => rank_movies_range _ h names n,
    fun g n => rank_in_genre_range _ h g n,
    fun n => rank_genres_range _ h n,
    fun u g s c => user_top_genre_range _ h u g s c,
    fun u k => recommend_range _ h u k⟩

/-- C10 witness: the mean rating of `Alpha` in the fixture store, `9/2`,
is in `[0, 5]`. -/
theorem c10_all_in_range_witness : (0:ℚ) ≤ 9/2 ∧ (9:ℚ)/2 ≤ 5 :=
  (c10_all_in_range goodOps).2.1 none none (mAlpha, 9/2, 2) (by decide)

theorem lastVal_foldl {A B : Type} (p : A → Prop) [DecidablePred p] (f : A → B) :
    ∀ (l : List A) (acc : Option B),
      l.foldl (fun acc a => if p a then some (f a) else acc) acc =
        (lastVal p f l).elim acc some := by
  intro l
  induction l with
  | nil => intro acc; rfl
  | cons a l ih =>
    intro acc
    have hstep : lastVal p f (a :: l) =
        l.foldl (fun acc a => if p a then some (f a) else acc)
          (if p a then some (f a) else none) := by
      simp [lastVal, List.foldl_cons]
    simp only [List.foldl_cons]
    rw [ih, hstep, ih]
    cases hlv : lastVal p f l with
    | some v => rfl
    | none =>
      split_ifs <;> rfl

theorem lastVal_cons {A B : Type} (p : A → Prop) [DecidablePred p] (f : A → B)
    (a : A) (l : List A) :
    lastVal p f (a :: l) =
      (lastVal p f l).elim (if p a then some (f a) else none) some := by
  have : lastVal p f (a :: l) =
      l.foldl (fun acc a => if p a then some (f a) else acc)
        (if p a then some (f a) else none) := by
    simp [lastVal, List.foldl_cons]
  rw [this, lastVal_foldl]

theorem lastVal_none_iff {A B : Type} (p : A → Prop) [DecidablePred p]
    (f : A → B) : ∀ (l : List A), lastVal p f l = none ↔ ∀ a ∈ l, ¬ p a := by
  intro l
  induction l with
  | nil => simp [lastVal]
  | cons a l ih =>
    rw [lastVal_cons]
    cases hlv : lastVal p f l with
    | some v =>
      simp only [Option.elim_some]
      constructor
      · intro h; exact absurd h (by simp)
      · intro h
        exact absurd (ih.mpr (fun x hx => h x (List.mem_cons_of_mem _ hx)))
          (by rw [hlv]; simp)
    | none =>
      simp only [Option.elim_none]
      split_ifs with hp
      · constructor
        · intro h; exact absurd h (by simp)
        · intro h; exact absurd hp (h a (List.mem_cons_self _ _))
      · constructor
        · intro _
          intro x hx
          rcases List.mem_cons.mp hx with rfl | hx
          · exact hp
          · exact (ih.mp hlv) x hx
        · intro _; rfl

theorem lastVal_some_exists {A B : Type} (p : A → Prop) [DecidablePred p]
    (f : A → B) : ∀ (l : List A) (v : B), lastVal p f l = some v →
      ∃ a ∈ l, p a ∧ f a = v := by
  intro l
  induction l with
  | nil => intro v h; exact absurd h (by simp [lastVal])
  | cons a l ih =>
    intro v h
    rw [lastVal_cons] at h
    cases hlv : lastVal p f l with
    | some w =>
      rw [hlv] at h
      obtain ⟨b, hb, hpb, hfb⟩ := ih w hlv
      exact ⟨b, List.mem_cons_of_mem _ hb, hpb, by
        rw [hfb]; exact Option.some.inj h⟩
    | none =>
      rw [hlv] at h
      simp only [Option.elim_none] at h
      split_ifs at h with hp
      · exact ⟨a, List.mem_cons_self _ _, hp, Option.some.inj h⟩

theorem filter_eq_length_le_one {A B : Type} [DecidableEq B] (f : A → B)
    (l : List A) (h : (l.map f).Nodup) (y : B) :
    (l.filter (fun a => decide (f a = y))).length ≤ 1 := by
  induction l with
  | nil => simp
  | cons a t ih =>
    simp only [List.map_cons, List.nodup_cons] at h
    rw [List.filter_cons]
    by_cases hy : f a = y
    · rw [if_pos (by simpa using hy)]
      have ht : t.filter (fun a => decide (f a = y)) = [] := by
        rw [List.filter_eq_nil_iff]
        intro b hb
        simp only [decide_eq_true_eq]
        intro hby
        exact h.1 (by rw [hy, ← hby]; exact List.mem_map_of_mem f hb)
      rw [ht]
      simp
    · rw [if_neg (by simpa using hy)]
      exact ih h.2

theorem lastVal_of_mem {A B : Type} (p : A → Prop) [DecidablePred p]
    (f : A → B) : ∀ (l : List A) (a : A),
      (l.filter (fun x => decide (p x))).length ≤ 1 →
      a ∈ l → p a → lastVal p f l = some (f a) := by
  intro l
  induction l with
  | nil => intro a _ ha; exact absurd ha (List.not_mem_nil a)
  | cons x t ih =>
    intro a huniq ha hpa
    rw [lastVal_cons]
    by_cases hpx : p x
    · have hfil : (x :: t).filter (fun x => decide (p x)) =
          x :: t.filter (fun x => decide (p x)) := by
        simp [List.filter_cons, hpx]
      rw [hfil] at huniq
      simp only [List.length_cons] at huniq
      have ht : t.filter (fun x => decide (p x)) = [] :=
        List.length_eq_zero.mp (by omega)
      have hnone : lastVal p f t = none := by
        rw [lastVal_none_iff]
        intro b hb hpb
        have : b ∈ t.filter (fun x => decide (p x)) :=
          List.mem_filter.mpr ⟨hb, by simpa using hpb⟩
        rw [ht] at this
        exact absurd this (List.not_mem_nil b)
      rw [hnone]
      have hax : a = x := by
        rcases List.mem_cons.mp ha with rfl | hat
        · rfl
        · have : a ∈ t.filter (fun x => decide (p x)) :=
            List.mem_filter.mpr ⟨hat, by simpa using hpa⟩
          rw [ht] at this
          exact absurd this (List.not_mem_nil a)
      subst hax
      simp [hpa]
    · have hax : a ∈ t := by
        rcases List.mem_cons.mp ha with rfl | hat
        · exact absurd hpa hpx
        · exact hat
      have hfil : (x :: t).filter (fun x => decide (p x)) =
          t.filter (fun x => decide (p x)) := by
        simp [List.filter_cons, hpx]
      rw [hfil] at huniq
      rw [ih a huniq hax hpa]
      rfl

theorem lastVal_perm {A B : Type} (p : A → Prop) [DecidablePred p] (f : A → B)
    {l₁ l₂ : List A} (hperm : l₁.Perm l₂)
    (huniq : (l₁.filter (fun x => decide (p x))).length ≤ 1) :
    lastVal p f l₁ = lastVal p f l₂ := by
  have huniq₂ : (l₂.filter (fun x => decide (p x))).length ≤ 1 := by
    rw [← (hperm.filter _).length_eq]
    exact huniq
  cases hlv : lastVal p f l₁ with
  | none =>
    rw [lastVal_none_iff] at hlv
    rw [eq_comm, lastVal_none_iff]
    intro a ha
    exact hlv a (hperm.symm.subset ha)
  | some v =>
    obtain ⟨a, ha, hpa, hfa⟩ := lastVal_some_exists p f l₁ v hlv
    rw [lastVal_of_mem p f l₂ a huniq₂ (hperm.subset ha) hpa, hfa]

theorem loadMoviesFold_mbn (rows : List (String × String × String)) :
    ∀ acc : DataStore × ℕ,
      (rows.foldl loadMoviesStep acc).1.movies_by_name =
        rows.foldl
          (fun mbn row =>
            if row.1 = "" ∨ row.2.1 = "" ∨ row.2.2 = "" then mbn
            else update' row.2.2 (mkMovie row) mbn)
          acc.1.movies_by_name := by
  induction rows with
  | nil => intro acc; rfl
  | cons row rest ih =>
    intro acc
    simp only [List.foldl_cons]
    rw [ih]
    congr 1
    unfold loadMoviesStep
    split_ifs <;> rfl

theorem loadMoviesFold_mbg (rows : List (String × String × String)) :
    ∀ acc : DataStore × ℕ,
      (rows.foldl loadMoviesStep acc).1.movies_by_genre =
        rows.foldl
          (fun mbg row =>
            if row.1 = "" ∨ row.2.1 = "" ∨ row.2.2 = "" then mbg
            else addToGenre row.1 row.2.2 mbg)
          acc.1.movies_by_genre := by
  induction rows with
  | nil => intro acc; rfl
  | cons row rest ih =>
    intro acc
    simp only [List.foldl_cons]
    rw [ih]
    congr 1
    unfold loadMoviesStep
    split_ifs <;> rfl

theorem lookup_mbnFold (n : String) (rows : List (String × String × String)) :
    ∀ mbn, lookup' n (rows.foldl
        (fun mbn row =>
          if row.1 = "" ∨ row.2.1 = "" ∨ row.2.2 = "" then mbn
          else update' row.2.2 (mkMovie row) mbn)
        mbn) =
      (lastVal (fun row => acceptM row ∧ row.2.2 = n) mkMovie rows).elim
        (lookup' n mbn) some := by
  induction rows with
  | nil => intro mbn; rfl
  | cons row rest ih =>
    intro mbn
    rw [List.foldl_cons, ih, lastVal_cons]
    cases hlv : lastVal (fun row => acceptM row ∧ row.2.2 = n) mkMovie rest with
    | some v => rfl
    | none =>
      simp only [Option.elim_none]
      by_cases hacc : acceptM row
      · rw [if_neg hacc]
        by_cases hn : row.2.2 = n
        · subst hn
          rw [lookup'_update'_self, if_pos ⟨hacc, rfl⟩]
          rfl
        · rw [lookup'_update'_ne _ _ _ _ (fun hc => hn hc.symm),
            if_neg (fun hc : acceptM row ∧ row.2.2 = n => hn hc.2)]
          rfl
      · rw [if_pos (not_not.mp hacc),
          if_neg (fun hc : acceptM row ∧ row.2.2 = n => hacc hc.1)]
        rfl

theorem load_movies_mbn_lookup (rows : List (String × String × String))
    (st : DataStore) (n : String) :
    lookup' n (load_movies_file rows st).1.movies_by_name =
      (lastVal (fun row => acceptM row ∧ row.2.2 = n) mkMovie rows).elim
        none some := by
  unfold load_movies_file
  rw [loadMoviesFold_mbn, lookup_mbnFold]
  rfl

theorem filter_acceptM_eq (n : String) (mr : List (String × String × String)) :
    mr.filter (fun x => decide (acceptM x ∧ x.2.2 = n)) =
      (mr.filter acceptMB).filter (fun x => decide (x.2.2 = n)) := by
  rw [List.filter_filter]
  apply List.filter_congr
  intro x _
  simp [acceptMB, acceptM, Bool.and_comm]

theorem mbn_lookup_eq_of_perm {mr₁ mr₂ : List (String × String × String)}
    (hperm : mr₁.Perm mr₂)
    (hnodup : ((mr₁.filter acceptMB).map (fun r => r.2.2)).Nodup)
    (st₁ st₂ : DataStore) (n : String) :
    lookup' n (load_movies_file mr₁ st₁).1.movies_by_name =
      lookup' n (load_movies_file mr₂ st₂).1.movies_by_name := by
  rw [load_movies_mbn_lookup, load_movies_mbn_lookup]
  congr 1
  apply lastVal_perm _ _ hperm
  rw [show (fun x => decide (acceptM x ∧ x.2.2 = n)) =
      (fun x => decide ((fun row => acceptM row ∧ row.2.2 = n) x)) from rfl] at *
  rw [filter_acceptM_eq n mr₁]
  exact filter_eq_length_le_one (fun r => r.2.2) (mr₁.filter acceptMB) hnodup n

theorem mem_mbgFold (g x : String) (rows : List (String × String × String)) :
    ∀ mbg, x ∈ (lookup' g (rows.foldl
        (fun mbg row =>
          if row.1 = "" ∨ row.2.1 = "" ∨ row.2.2 = "" then mbg
          else addToGenre row.1 row.2.2 mbg)
        mbg)).getD [] ↔
      (∃ row ∈ rows, acceptM row ∧ row.1 = g ∧ row.2.2 = x) ∨
        x ∈ (lookup' g mbg).getD [] := by
  induction rows with
  | nil => intro mbg; simp
  | cons row rest ih =>
    intro mbg
    rw [List.foldl_cons, ih]
    by_cases hacc : acceptM row
    · rw [if_neg hacc, mem_addToGenre]
      constructor
      · rintro (⟨row', hrow', hrest⟩ | (⟨hg, hx⟩ | hmbg))
        · exact Or.inl ⟨row', List.mem_cons_of_mem _ hrow', hrest⟩
        · exact Or.inl ⟨row, List.mem_cons_self _ _, hacc, hg, hx.symm⟩
        · exact Or.inr hmbg
      · rintro (⟨row', hrow', hrest⟩ | hmbg)
        · rcases List.mem_cons.mp hrow' with rfl | hrow'
          · exact Or.inr (Or.inl ⟨hrest.2.1, hrest.2.2.symm⟩)
          · exact Or.inl ⟨row', hrow', hrest⟩
        · exact Or.inr (Or.inr hmbg)
    · rw [if_pos (not_not.mp hacc)]
      constructor
      · rintro (⟨row', hrow', hrest⟩ | hmbg)
        · exact Or.inl ⟨row', List.mem_cons_of_mem _ hrow', hrest⟩
        · exact Or.inr hmbg
      · rintro (⟨row', hrow', hrest⟩ | hmbg)
        · rcases List.mem_cons.mp hrow' with rfl | hrow'
          · exact absurd hrest.1 hacc
          · exact Or.inl ⟨row', hrow', hrest⟩
        · exact Or.inr hmbg

theorem addToGenre_cons (g n : String) (pp : String × List String)
    (t : List (String × List String)) :
    addToGenre g n (pp :: t) =
      if pp.1 = g then (pp.1, if n ∈ pp.2 then pp.2 else pp.2 ++ [n]) :: t
      else pp :: addToGenre g n t := rfl

theorem addToGenre_setsNodup (g n : String)
    (mbg : List (String × List String)) (h : ∀ p ∈ mbg, p.2.Nodup) :
    ∀ p ∈ addToGenre g n mbg, p.2.Nodup := by
  induction mbg with
  | nil =>
    intro p hp
    simp only [addToGenre, List.mem_singleton] at hp
    subst hp
    simp
  | cons pp t ih =>
    intro p hp
    by_cases hpp : pp.1 = g
    · rw [addToGenre_cons, if_pos hpp] at hp
      rcases List.mem_cons.mp hp with rfl | hp
      · dsimp only
        split_ifs with hn
        · exact h pp (List.mem_cons_self _ _)
        · simp [List.nodup_append, h pp (List.mem_cons_self _ _), hn]
      · exact h p (List.mem_cons_of_mem _ hp)
    · rw [addToGenre_cons, if_neg hpp] at hp
      rcases List.mem_cons.mp hp with rfl | hp
      · exact h _ (List.mem_cons_self _ _)
      · exact ih (fun q hq => h q (List.mem_cons_of_mem _ hq)) p hp

theorem addToGenre_entriesNonempty (g n : String)
    (mbg : List (String × List String)) (h : ∀ p ∈ mbg, p.2 ≠ []) :
    ∀ p ∈ addToGenre g n mbg, p.2 ≠ [] := by
  induction mbg with
  | nil =>
    intro p hp
    simp only [addToGenre, List.mem_singleton] at hp
    subst hp
    simp
  | cons pp t ih =>
    intro p hp
    by_cases hpp : pp.1 = g
    · rw [addToGenre_cons, if_pos hpp] at hp
      rcases List.mem_cons.mp hp with rfl | hp
      · dsimp only
        split_ifs with hn
        · exact h pp (List.mem_cons_self _ _)
        · simp
      · exact h p (List.mem_cons_of_mem _ hp)
    · rw [addToGenre_cons, if_neg hpp] at hp
      rcases List.mem_cons.mp hp with rfl | hp
      · exact h _ (List.mem_cons_self _ _)
      · exact ih (fun q hq => h q (List.mem_cons_of_mem _ hq)) p hp

theorem addToGenre_keys (g n : String) (mbg : List (String × List String)) :
    (addToGenre g n mbg).map (fun p => p.1) =
      if g ∈ mbg.map (fun p => p.1) then mbg.map (fun p => p.1)
      else mbg.map (fun p => p.1) ++ [g] := by
  induction mbg with
  | nil => simp [addToGenre]
  | cons pp t ih =>
    by_cases hpp : pp.1 = g
    · simp [addToGenre, hpp]
    · simp only [addToGenre, if_neg hpp, List.map_cons, ih]
      by_cases hm : g ∈ t.map (fun p => p.1)
      · simp [hm, Ne.symm hpp]
      · simp [hm, Ne.symm hpp]

theorem addToGenre_keysNodup (g n : String)
    (mbg : List (String × List String))
    (h : (mbg.map (fun p => p.1)).Nodup) :
    ((addToGenre g n mbg).map (fun p => p.1)).Nodup := by
  rw [addToGenre_keys]
  split_ifs with hm
  · exact h
  · simp [List.nodup_append, h, hm]

theorem mbgFold_pres (P : List (String × List String) → Prop)
    (hP : ∀ g n mbg, P mbg → P (addToGenre g n mbg))
    (rows : List (String × String × String)) :
    ∀ mbg, P mbg → P (rows.foldl
      (fun mbg row =>
        if row.1 = "" ∨ row.2.1 = "" ∨ row.2.2 = "" then mbg
        else addToGenre row.1 row.2.2 mbg)
      mbg) := by
  induction rows with
  | nil => intro mbg h; exact h
  | cons row rest ih =>
    intro mbg h
    simp only [List.foldl_cons]
    apply ih
    split_ifs
    · exact h
    · exact hP _ _ _ h

theorem lookup'_isSome_iff {V : Type} (k : String) :
    ∀ l : List (String × V), (lookup' k l).isSome ↔ k ∈ l.map (fun p => p.1) := by
  intro l
  induction l with
  | nil => simp [lookup']
  | cons p t ih =>
    simp only [lookup', List.map_cons, List.mem_cons]
    by_cases hp : p.1 = k
    · simp [hp]
    · simp only [if_neg hp, ih]
      constructor
      · exact fun h => Or.inr h
      · rintro (rfl | h)
        · exact absurd rfl hp
        · exact h

theorem lookup2_addUserRating (u m : String) (r : ℚ)
    (ur : List (String × List (String × ℚ))) (u' m' : String) :
    lookup2 u' m' (addUserRating u m r ur) =
      if u = u' ∧ m = m' then some r else lookup2 u' m' ur := by
  unfold lookup2
  rw [lookup'_addUserRating]
  by_cases hu : u = u'
  · rw [if_pos hu]
    simp only [Option.elim_some]
    by_cases hm : m = m'
    · subst hm
      rw [lookup'_update'_self, if_pos ⟨hu, rfl⟩]
    · rw [lookup'_update'_ne _ _ _ _ (fun hc => hm hc.symm),
        if_neg (fun hc => hm hc.2)]
      cases lookup' u' ur <;> rfl
  · rw [if_neg hu, if_neg (fun hc => hu hc.1)]

theorem lookup2_urFold (u m : String) (rows : List (String × ℚ × String)) :
    ∀ ur, lookup2 u m (rows.foldl loadRatingsStep ur) =
      (lastVal (fun row => acceptR row ∧ row.2.2 = u ∧ row.1 = m)
        (fun row => row.2.1) rows).elim (lookup2 u m ur) some := by
  induction rows with
  | nil => intro ur; rfl
  | cons row rest ih =>
    intro ur
    rw [List.foldl_cons, ih, lastVal_cons]
    cases hlv : lastVal (fun row => acceptR row ∧ row.2.2 = u ∧ row.1 = m)
        (fun row => row.2.1) rest with
    | some v => rfl
    | none =>
      simp only [Option.elim_none]
      unfold loadRatingsStep
      by_cases hacc : acceptR row
      · rw [if_pos (show 0 ≤ row.2.1 ∧ row.2.1 ≤ 5 from hacc),
          lookup2_addUserRating]
        by_cases hum : row.2.2 = u ∧ row.1 = m
        · rw [if_pos hum, if_pos ⟨hacc, hum⟩]
          rfl
        · rw [if_neg hum, if_neg (fun hc => hum hc.2)]
          rfl
      · rw [if_neg (show ¬(0 ≤ row.2.1 ∧ row.2.1 ≤ 5) from hacc),
          if_neg (fun hc => hacc hc.1)]
        rfl

theorem load_ratings_lookup2 (rows : List (String × ℚ × String))
    (st : DataStore) (u m : String) :
    lookup2 u m (load_ratings_file rows st).1.user_ratings =
      (lastVal (fun row => acceptR row ∧ row.2.2 = u ∧ row.1 = m)
        (fun row => row.2.1) rows).elim none some := by
  rw [show (load_ratings_file rows st).1.user_ratings =
      rows.foldl loadRatingsStep [] from rfl, lookup2_urFold]
  rfl

theorem filter_acceptR_eq (u m : String) (rr : List (String × ℚ × String)) :
    rr.filter (fun x => decide (acceptR x ∧ x.2.2 = u ∧ x.1 = m)) =
      (rr.filter acceptRB).filter (fun x => decide (pairOf x = (u, m))) := by
  rw [List.filter_filter]
  apply List.filter_congr
  intro x _
  simp only [acceptRB, ← Bool.decide_and, decide_eq_decide, pairOf,
    Prod.mk.injEq, acceptR]
  tauto

theorem ur_lookup2_eq_of_perm {rr₁ rr₂ : List (String × ℚ × String)}
    (hperm : rr₁.Perm rr₂)
    (hnodup : ((rr₁.filter acceptRB).map pairOf).Nodup)
    (st₁ st₂ : DataStore) (u m : String) :
    lookup2 u m (load_ratings_file rr₁ st₁).1.user_ratings =
      lookup2 u m (load_ratings_file rr₂ st₂).1.user_ratings := by
  rw [load_ratings_lookup2, load_ratings_lookup2]
  congr 1
  apply lastVal_perm _ _ hperm
  rw [show (fun x => decide ((fun row =>
      acceptR row ∧ row.2.2 = u ∧ row.1 = m) x)) =
      (fun x => decide (acceptR x ∧ x.2.2 = u ∧ x.1 = m)) from rfl,
    filter_acceptR_eq u m rr₁]
  exact filter_eq_length_le_one pairOf _ hnodup (u, m)

theorem addUserRating_keys (u m : String) (r : ℚ)
    (ur : List (String × List (String × ℚ))) :
    (addUserRating u m r ur).map (fun p => p.1) =
      if u ∈ ur.map (fun p => p.1) then ur.map (fun p => p.1)
      else ur.map (fun p => p.1) ++ [u] := by
  induction ur with
  | nil => simp [addUserRating]
  | cons pp t ih =>
    by_cases hpp : pp.1 = u
    · simp [addUserRating, hpp]
    · simp only [addUserRating, if_neg hpp, List.map_cons, ih]
      by_cases hm : u ∈ t.map (fun p => p.1)
      · simp [hm, Ne.symm hpp]
      · simp [hm, Ne.symm hpp]

theorem mem_addUserRating_keys (u' u m : String) (r : ℚ)
    (ur : List (String × List (String × ℚ))) :
    u' ∈ (addUserRating u m r ur).map (fun p => p.1) ↔
      u' = u ∨ u' ∈ ur.map (fun p => p.1) := by
  rw [addUserRating_keys]
  split_ifs with hm
  · constructor
    · exact fun h => Or.inr h
    · rintro (rfl | h)
      · exact hm
      · exact h
  · simp [List.mem_append, or_comm]

theorem addUserRating_keysNodup (u m : String) (r : ℚ)
    (ur : List (String × List (String × ℚ)))
    (h : (ur.map (fun p => p.1)).Nodup) :
    ((addUserRating u m r ur).map (fun p => p.1)).Nodup := by
  rw [addUserRating_keys]
  split_ifs with hm
  · exact h
  · simp [List.nodup_append, h, hm]

theorem urFold_pres (P : List (String × List (String × ℚ)) → Prop)
    (hP : ∀ u m r ur, P ur → P (addUserRating u m r ur))
    (rows : List (String × ℚ × String)) :
    ∀ ur, P ur → P (rows.foldl loadRatingsStep ur) := by
  induction rows with
  | nil => intro ur h; exact h
  | cons row rest ih =>
    intro ur h
    simp only [List.foldl_cons]
    apply ih
    unfold loadRatingsStep
    split_ifs
    · exact hP _ _ _ _ h
    · exact h

theorem mem_urFold_keys (u : String) (rows : List (String × ℚ × String)) :
    ∀ ur, u ∈ (rows.foldl loadRatingsStep ur).map (fun p => p.1) ↔
      (∃ row ∈ rows, acceptR row ∧ row.2.2 = u) ∨
        u ∈ ur.map (fun p => p.1) := by
  induction rows with
  | nil => intro ur; simp
  | cons row rest ih =>
    intro ur
    rw [List.foldl_cons]
    by_cases hacc : acceptR row
    · rw [show loadRatingsStep ur row = addUserRating row.2.2 row.1 row.2.1 ur from by
        unfold loadRatingsStep
        rw [if_pos (show 0 ≤ row.2.1 ∧ row.2.1 ≤ 5 from hacc)], ih,
        mem_addUserRating_keys]
      constructor
      · rintro (⟨row', hrow', hrest⟩ | (rfl | hur))
        · exact Or.inl ⟨row', List.mem_cons_of_mem _ hrow', hrest⟩
        · exact Or.inl ⟨row, List.mem_cons_self _ _, hacc, rfl⟩
        · exact Or.inr hur
      · rintro (⟨row', hrow', hrest⟩ | hur)
        · rcases List.mem_cons.mp hrow' with rfl | hrow'
          · exact Or.inr (Or.inl hrest.2.symm)
          · exact Or.inl ⟨row', hrow', hrest⟩
        · exact Or.inr (Or.inr hur)
    · rw [show loadRatingsStep ur row = ur from by
        unfold loadRatingsStep
        rw [if_neg (show ¬(0 ≤ row.2.1 ∧ row.2.1 ≤ 5) from hacc)], ih]
      constructor
      · rintro (⟨row', hrow', hrest⟩ | hur)
        · exact Or.inl ⟨row', List.mem_cons_of_mem _ hrow', hrest⟩
        · exact Or.inr hur
      · rintro (⟨row', hrow', hrest⟩ | hur)
        · rcases List.mem_cons.mp hrow' with rfl | hrow'
          · exact absurd hrest.1 hacc
          · exact Or.inl ⟨row', hrow', hrest⟩
        · exact Or.inr hur

theorem appendRating_keys (m : String) (r : ℚ)
    (rbm : List (String × List ℚ)) :
    (appendRating m r rbm).map (fun p => p.1) =
      if m ∈ rbm.map (fun p => p.1) then rbm.map (fun p => p.1)
      else rbm.map (fun p => p.1) ++ [m] := by
  induction rbm with
  | nil => simp [appendRating]
  | cons pp t ih =>
    by_cases hpp : pp.1 = m
    · simp [appendRating, hpp]
    · simp only [appendRating, if_neg hpp, List.map_cons, ih]
      by_cases hm : m ∈ t.map (fun p => p.1)
      · simp [hm, Ne.symm hpp]
      · simp [hm, Ne.symm hpp]

theorem appendRating_keysNodup (m : String) (r : ℚ)
    (rbm : List (String × List ℚ))
    (h : (rbm.map (fun p => p.1)).Nodup) :
    ((appendRating m r rbm).map (fun p => p.1)).Nodup := by
  rw [appendRating_keys]
  split_ifs with hm
  · exact h
  · simp [List.nodup_append, h, hm]

theorem buildRBM_pres (P : List (String × List ℚ) → Prop)
    (hP : ∀ m r rbm, P rbm → P (appendRating m r rbm))
    (mbn : List (String × Movie)) (ur : List (String × List (String × ℚ)))
    (hinit : P []) : P (buildRBM mbn ur) := by
  suffices hgen : ∀ (l : List (String × List (String × ℚ)))
      (rbm : List (String × List ℚ)), P rbm →
      P (l.foldl
        (fun rbm p => p.2.foldl
          (fun rbm q =>
            if (lookup' q.1 mbn).isSome then appendRating q.1 q.2 rbm else rbm)
          rbm) rbm) by
    exact hgen ur [] hinit
  intro l
  induction l with
  | nil => intro rbm h; exact h
  | cons p t ih =>
    intro rbm h
    simp only [List.foldl_cons]
    apply ih
    clear ih
    induction p.2 generalizing rbm with
    | nil => exact h
    | cons q d ihd =>
      simp only [List.foldl_cons]
      apply ihd
      split_ifs
      · exact hP _ _ _ h
      · exact h

theorem lookup'_self_of_keysNodup {V : Type} :
    ∀ (l : List (String × V)), (l.map (fun p => p.1)).Nodup →
      ∀ p ∈ l, lookup' p.1 l = some p.2 := by
  intro l
  induction l with
  | nil => intro _ p hp; exact absurd hp (List.not_mem_nil p)
  | cons q t ih =>
    intro h p hp
    simp only [List.map_cons, List.nodup_cons] at h
    rcases List.mem_cons.mp hp with rfl | hp
    · simp [lookup']
    · have hne : ¬ q.1 = p.1 :=
        fun hc => h.1 (hc ▸ List.mem_map_of_mem (fun p => p.1) hp)
      simp only [lookup', if_neg hne]
      exact ih h.2 p hp

theorem filterMap_lookup_eq_keys (n : String)
    (ur : List (String × List (String × ℚ)))
    (houter : (ur.map (fun p => p.1)).Nodup) :
    ur.filterMap (fun p => lookup' n p.2) =
      (ur.map (fun p => p.1)).filterMap (fun u => lookup2 u n ur) := by
  rw [List.filterMap_map]
  apply List.filterMap_congr
  intro p hp
  show lookup' n p.2 = lookup2 p.1 n ur
  unfold lookup2
  rw [lookup'_self_of_keysNodup ur houter p hp]
  rfl

theorem lookup'_isSome_iff_getD {A : Type} (k : String)
    (l : List (String × List A)) (hNE : ∀ p ∈ l, p.2 ≠ []) :
    (lookup' k l).isSome ↔ (lookup' k l).getD [] ≠ [] := by
  cases hlk : lookup' k l with
  | none => simp
  | some v =>
    simp only [Option.isSome_some, Option.getD_some]
    exact ⟨fun _ => hNE (k, v) (lookup'_mem k v l hlk), fun _ => trivial⟩

theorem insertionSort_eq_of_perm {l₁ l₂ : List (String × ℚ × ℕ)}
    (h : l₁.Perm l₂) :
    List.insertionSort rankLE l₁ = List.insertionSort rankLE l₂ :=
  List.eq_of_perm_of_sorted
    ((List.perm_insertionSort _ _).trans (h.trans (List.perm_insertionSort _ _).symm))
    (List.sorted_insertionSort _ _) (List.sorted_insertionSort _ _)

theorem outputs_eq_of_rel (st₁ st₂ : DataStore)
    (hstored : ∀ n, ((lookup' n st₁.ratings_by_movie).getD []).Perm
        ((lookup' n st₂.ratings_by_movie).getD []))
    (hrbmK₁ : (st₁.ratings_by_movie.map (fun p => p.1)).Nodup)
    (hrbmK₂ : (st₂.ratings_by_movie.map (fun p => p.1)).Nodup)
    (hrbmNE₁ : ∀ p ∈ st₁.ratings_by_movie, p.2 ≠ [])
    (hrbmNE₂ : ∀ p ∈ st₂.ratings_by_movie, p.2 ≠ [])
    (hmbgS : ∀ g, ((lookup' g st₁.movies_by_genre).getD []).Perm
        ((lookup' g st₂.movies_by_genre).getD []))
    (hmbgK₁ : (st₁.movies_by_genre.map (fun p => p.1)).Nodup)
    (hmbgK₂ : (st₂.movies_by_genre.map (fun p => p.1)).Nodup)
    (hmbgNE₁ : ∀ p ∈ st₁.movies_by_genre, p.2 ≠ [])
    (hmbgNE₂ : ∀ p ∈ st₂.movies_by_genre, p.2 ≠ []) :
    (∀ n, rank_movies_by_average st₁ none n = rank_movies_by_average st₂ none n) ∧
    (∀ g n, rank_movies_in_genre st₁ g n = rank_movies_in_genre st₂ g n) ∧
    (∀ n, rank_genres_by_popularity st₁ n = rank_genres_by_popularity st₂ n) := by
  have hnil : ∀ n, (lookup' n st₁.ratings_by_movie).getD [] = [] ↔
      (lookup' n st₂.ratings_by_movie).getD [] = [] := by
    intro n
    rw [← List.length_eq_zero, (hstored n).length_eq, List.length_eq_zero]
  have hrankItem : ∀ name, rankItem st₁ name = rankItem st₂ name := by
    intro name
    unfold rankItem
    by_cases h : (lookup' name st₁.ratings_by_movie).getD [] = []
    · rw [if_pos h, if_pos ((hnil name).mp h)]
    · rw [if_neg h, if_neg (fun hc => h ((hnil name).mpr hc))]
      have hs := (hstored name).sum_eq
      have hl := (hstored name).length_eq
      rw [listMean, listMean, hs, hl]
  have havg : ∀ m, movie_average_rating st₁ m = movie_average_rating st₂ m := by
    intro m
    unfold movie_average_rating
    by_cases h : (lookup' m st₁.ratings_by_movie).getD [] = []
    · rw [if_pos h, if_pos ((hnil m).mp h)]
    · rw [if_neg h, if_neg (fun hc => h ((hnil m).mpr hc))]
      have hs := (hstored m).sum_eq
      have hl := (hstored m).length_eq
      rw [listMean, listMean, hs, hl]
  have hitems : ∀ c₁ c₂ : List String, c₁.Perm c₂ →
      (c₁.filterMap (rankItem st₁)).Perm (c₂.filterMap (rankItem st₂)) := by
    intro c₁ c₂ hc
    rw [List.filterMap_congr (fun x _ => hrankItem x)]
    exact hc.filterMap _
  have hckeys : (st₁.ratings_by_movie.map (fun p => p.1)).Perm
      (st₂.ratings_by_movie.map (fun p => p.1)) := by
    rw [List.perm_ext_iff_of_nodup hrbmK₁ hrbmK₂]
    intro m
    rw [← lookup'_isSome_iff, ← lookup'_isSome_iff,
      lookup'_isSome_iff_getD m _ hrbmNE₁, lookup'_isSome_iff_getD m _ hrbmNE₂]
    constructor
    · exact fun h hc => h ((hnil m).mpr hc)
    · exact fun h hc => h ((hnil m).mp hc)
  have hgkeys : (st₁.movies_by_genre.map (fun p => p.1)).Perm
      (st₂.movies_by_genre.map (fun p => p.1)) := by
    rw [List.perm_ext_iff_of_nodup hmbgK₁ hmbgK₂]
    intro g
    have hgnil : (lookup' g st₁.movies_by_genre).getD [] = [] ↔
        (lookup' g st₂.movies_by_genre).getD [] = [] := by
      rw [← List.length_eq_zero, (hmbgS g).length_eq, List.length_eq_zero]
    rw [← lookup'_isSome_iff, ← lookup'_isSome_iff,
      lookup'_isSome_iff_getD g _ hmbgNE₁, lookup'_isSome_iff_getD g _ hmbgNE₂]
    constructor
    · exact fun h hc => h (hgnil.mpr hc)
    · exact fun h hc => h (hgnil.mp hc)
  refine ⟨?_, ?_, ?_⟩
  · intro n
    simp only [rank_movies_by_average, Option.getD_none]
    rw [insertionSort_eq_of_perm (hitems _ _ hckeys)]
  · intro g n
    simp only [rank_movies_in_genre]
    by_cases h : (lookup' g st₁.movies_by_genre).getD [] = []
    · have h2 : (lookup' g st₂.movies_by_genre).getD [] = [] := by
        rw [← List.length_eq_zero, ← (hmbgS g).length_eq, List.length_eq_zero]
        exact h
      rw [if_pos h, if_pos h2]
    · have h2 : (lookup' g st₂.movies_by_genre).getD [] ≠ [] := by
        intro hc
        apply h
        rw [← List.length_eq_zero, (hmbgS g).length_eq, List.length_eq_zero]
        exact hc
      rw [if_neg h, if_neg h2]
      simp only [rank_movies_by_average, Option.getD_some]
      rw [insertionSort_eq_of_perm (hitems _ _ (hmbgS g))]
  · intro n
    have hgrow : ∀ g, genreRow st₁ (g, (lookup' g st₁.movies_by_genre).getD []) =
        genreRow st₂ (g, (lookup' g st₂.movies_by_genre).getD []) := by
      intro g
      unfold genreRow
      dsimp only
      have havgs : (((lookup' g st₁.movies_by_genre).getD []).filterMap
          (movie_average_rating st₁)).Perm
          (((lookup' g st₂.movies_by_genre).getD []).filterMap
            (movie_average_rating st₂)) := by
        rw [List.filterMap_congr (fun x _ => havg x)]
        exact (hmbgS g).filterMap _
      by_cases h : ((lookup' g st₁.movies_by_genre).getD []).filterMap
          (movie_average_rating st₁) = []
      · have h2 : ((lookup' g st₂.movies_by_genre).getD []).filterMap
            (movie_average_rating st₂) = [] := by
          rw [← List.length_eq_zero, ← havgs.length_eq, List.length_eq_zero]
          exact h
        rw [if_pos h, if_pos h2]
      · have h2 : ((lookup' g st₂.movies_by_genre).getD []).filterMap
            (movie_average_rating st₂) ≠ [] := by
          intro hc
          apply h
          rw [← List.length_eq_zero, havgs.length_eq, List.length_eq_zero]
          exact hc
        rw [if_neg h, if_neg h2]
        have hs := havgs.sum_eq
        have hl := havgs.length_eq
        rw [listMean, listMean, hs, hl]
    have hres₁ : st₁.movies_by_genre.filterMap (genreRow st₁) =
        (st₁.movies_by_genre.map (fun p => p.1)).filterMap
          (fun g => genreRow st₁ (g, (lookup' g st₁.movies_by_genre).getD [])) := by
      rw [List.filterMap_map]
      apply List.filterMap_congr
      intro p hp
      show genreRow st₁ p =
        genreRow st₁ (p.1, (lookup' p.1 st₁.movies_by_genre).getD [])
      rw [lookup'_self_of_keysNodup _ hmbgK₁ p hp]
      rfl
    have hres₂ : st₂.movies_by_genre.filterMap (genreRow st₂) =
        (st₂.movies_by_genre.map (fun p => p.1)).filterMap
          (fun g => genreRow st₂ (g, (lookup' g st₂.movies_by_genre).getD [])) := by
      rw [List.filterMap_map]
      apply List.filterMap_congr
      intro p hp
      show genreRow st₂ p =
        genreRow st₂ (p.1, (lookup' p.1 st₂.movies_by_genre).getD [])
      rw [lookup'_self_of_keysNodup _ hmbgK₂ p hp]
      rfl
    have hperm : (st₁.movies_by_genre.filterMap (genreRow st₁)).Perm
        (st₂.movies_by_genre.filterMap (genreRow st₂)) := by
      rw [hres₁, hres₂, List.filterMap_congr (fun g _ => hgrow g)]
      exact hgkeys.filterMap _
    simp only [rank_genres_by_popularity]
    rw [insertionSort_eq_of_perm hperm]

/-- C8: loading two movie files that are row permutations of each other with
unique accepted movie names, and two rating files that are row permutations
of each other with at most one accepted row per `(user, movie)` pair,
produces identical outputs for `topMovies`, `topMoviesInGenre` and
`topGenres` at every limit — the three-level comparator is a total order, so
the ranking output is invariant under input-row reordering. -/
theorem c8_permutation_invariance
    (mr₁ mr₂ : List (String × String × String))
    (rr₁ rr₂ : List (String × ℚ × String)) (st₁ st₂ : DataStore)
    (hm : mr₁.Perm mr₂) (hr : rr₁.Perm rr₂)
    (hnm : ((mr₁.filter acceptMB).map (fun r => r.2.2)).Nodup)
    (hnr : ((rr₁.filter acceptRB).map pairOf).Nodup) :
    (∀ n, rank_movies_by_average
        (load_ratings_file rr₁ (load_movies_file mr₁ st₁).1).1 none n =
      rank_movies_by_average
        (load_ratings_file rr₂ (load_movies_file mr₂ st₂).1).1 none n) ∧
    (∀ g n, rank_movies_in_genre
        (load_ratings_file rr₁ (load_movies_file mr₁ st₁).1).1 g n =
      rank_movies_in_genre
        (load_ratings_file rr₂ (load_movies_file mr₂ st₂).1).1 g n) ∧
    (∀ n, rank_genres_by_popularity
        (load_ratings_file rr₁ (load_movies_file mr₁ st₁).1).1 n =
      rank_genres_by_popularity
        (load_ratings_file rr₂ (load_movies_file mr₂ st₂).1).1 n) := by
  have hmbn : ∀ n, lookup' n (load_movies_file mr₁ st₁).1.movies_by_name =
      lookup' n (load_movies_file mr₂ st₂).1.movies_by_name :=
    fun n => mbn_lookup_eq_of_perm hm hnm st₁ st₂ n
  have hukN₁ : (((rr₁.foldl loadRatingsStep []).map (fun p => p.1))).Nodup :=
    urFold_pres _ (fun u m r ur h => addUserRating_keysNodup u m r ur h)
      rr₁ [] (by simp)
  have hukN₂ : (((rr₂.foldl loadRatingsStep []).map (fun p => p.1))).Nodup :=
    urFold_pres _ (fun u m r ur h => addUserRating_keysNodup u m r ur h)
      rr₂ [] (by simp)
  have hukeys : ((rr₁.foldl loadRatingsStep []).map (fun p => p.1)).Perm
      ((rr₂.foldl loadRatingsStep []).map (fun p => p.1)) := by
    rw [List.perm_ext_iff_of_nodup hukN₁ hukN₂]
    intro u
    rw [mem_urFold_keys u rr₁ [], mem_urFold_keys u rr₂ []]
    simp only [List.map_nil, List.not_mem_nil, or_false]
    constructor
    · rintro ⟨row, hrow, hp⟩
      exact ⟨row, hr.subset hrow, hp⟩
    · rintro ⟨row, hrow, hp⟩
      exact ⟨row, hr.symm.subset hrow, hp⟩
  have hinN₁ : ∀ p ∈ rr₁.foldl loadRatingsStep [],
      (p.2.map (fun q => q.1)).Nodup :=
    loadRatingsFold_innerNodup rr₁ [] (by simp)
  have hinN₂ : ∀ p ∈ rr₂.foldl loadRatingsStep [],
      (p.2.map (fun q => q.1)).Nodup :=
    loadRatingsFold_innerNodup rr₂ [] (by simp)
  have hl2 : ∀ u n, lookup2 u n (rr₁.foldl loadRatingsStep []) =
      lookup2 u n (rr₂.foldl loadRatingsStep []) :=
    fun u n => ur_lookup2_eq_of_perm hr hnr emptyStore emptyStore u n
  have hstored : ∀ n,
      ((lookup' n (buildRBM (load_movies_file mr₁ st₁).1.movies_by_name
        (rr₁.foldl loadRatingsStep []))).getD []).Perm
      ((lookup' n (buildRBM (load_movies_file mr₂ st₂).1.movies_by_name
        (rr₂.foldl loadRatingsStep []))).getD []) := by
    intro n
    by_cases hkn : (lookup' n (load_movies_file mr₁ st₁).1.movies_by_name).isSome
    · have hkn₂ : (lookup' n (load_movies_file mr₂ st₂).1.movies_by_name).isSome := by
        rw [← hmbn n]
        exact hkn
      rw [buildRBM_lookup_known _ n hkn _, buildRBM_lookup_known _ n hkn₂ _,
        join_ratingsFor n _ hinN₁, join_ratingsFor n _ hinN₂,
        filterMap_lookup_eq_keys n _ hukN₁, filterMap_lookup_eq_keys n _ hukN₂,
        List.filterMap_congr (fun u _ => hl2 u n)]
      exact hukeys.filterMap _
    · have hnone₁ := Option.not_isSome_iff_eq_none.mp hkn
      have hnone₂ : lookup' n (load_movies_file mr₂ st₂).1.movies_by_name = none := by
        rw [← hmbn n]
        exact hnone₁
      rw [buildRBM_lookup_unknown _ n hnone₁ _, buildRBM_lookup_unknown _ n hnone₂ _]
  have hrbmK₁ : ((buildRBM (load_movies_file mr₁ st₁).1.movies_by_name
      (rr₁.foldl loadRatingsStep [])).map (fun p => p.1)).Nodup :=
    buildRBM_pres (fun rbm => ((rbm.map (fun p => p.1))).Nodup)
      (fun m r rbm h => appendRating_keysNodup m r rbm h) _ _ (by simp)
  have hrbmK₂ : ((buildRBM (load_movies_file mr₂ st₂).1.movies_by_name
      (rr₂.foldl loadRatingsStep [])).map (fun p => p.1)).Nodup :=
    buildRBM_pres (fun rbm => ((rbm.map (fun p => p.1))).Nodup)
      (fun m r rbm h => appendRating_keysNodup m r rbm h) _ _ (by simp)
  have hrbmNE₁ : ∀ p ∈ buildRBM (load_movies_file mr₁ st₁).1.movies_by_name
      (rr₁.foldl loadRatingsStep []), p.2 ≠ [] :=
    buildRBM_pres (fun rbm => ∀ p ∈ rbm, p.2 ≠ [])
      (fun m r rbm h => appendRating_nonempty m r rbm h) _ _ (by simp)
  have hrbmNE₂ : ∀ p ∈ buildRBM (load_movies_file mr₂ st₂).1.movies_by_name
      (rr₂.foldl loadRatingsStep []), p.2 ≠ [] :=
    buildRBM_pres (fun rbm => ∀ p ∈ rbm, p.2 ≠ [])
      (fun m r rbm h => appendRating_nonempty m r rbm h) _ _ (by simp)
  have hg₁ : (load_movies_file mr₁ st₁).1.movies_by_genre =
      mr₁.foldl
        (fun mbg row =>
          if row.1 = "" ∨ row.2.1 = "" ∨ row.2.2 = "" then mbg
          else addToGenre row.1 row.2.2 mbg) [] :=
    loadMoviesFold_mbg mr₁ ({ st₁ with movies_by_name := [], movies_by_genre := [] }, 0)
  have hg₂ : (load_movies_file mr₂ st₂).1.movies_by_genre =
      mr₂.foldl
        (fun mbg row =>
          if row.1 = "" ∨ row.2.1 = "" ∨ row.2.2 = "" then mbg
          else addToGenre row.1 row.2.2 mbg) [] :=
    loadMoviesFold_mbg mr₂ ({ st₂ with movies_by_name := [], movies_by_genre := [] }, 0)
  have hsets₁ : ∀ p ∈ (load_movies_file mr₁ st₁).1.movies_by_genre, p.2.Nodup := by
    rw [hg₁]
    exact mbgFold_pres (fun mbg => ∀ p ∈ mbg, p.2.Nodup)
      (fun g nn mbg h => addToGenre_setsNodup g nn mbg h) mr₁ [] (by simp)
  have hsets₂ : ∀ p ∈ (load_movies_file mr₂ st₂).1.movies_by_genre, p.2.Nodup := by
    rw [hg₂]
    exact mbgFold_pres (fun mbg => ∀ p ∈ mbg, p.2.Nodup)
      (fun g nn mbg h => addToGenre_setsNodup g nn mbg h) mr₂ [] (by simp)
  have hset₁ : ∀ g, ((lookup' g (load_movies_file mr₁ st₁).1.movies_by_genre).getD []).Nodup := by
    intro g
    cases hlk : lookup' g (load_movies_file mr₁ st₁).1.movies_by_genre with
    | none => simp
    | some l =>
      simpa using hsets₁ (g, l) (lookup'_mem _ _ _ hlk)
  have hset₂ : ∀ g, ((lookup' g (load_movies_file mr₂ st₂).1.movies_by_genre).getD []).Nodup := by
    intro g
    cases hlk : lookup' g (load_movies_file mr₂ st₂).1.movies_by_genre with
    | none => simp
    | some l =>
      simpa using hsets₂ (g, l) (lookup'_mem _ _ _ hlk)
  have hmbgS : ∀ g,
      ((lookup' g (load_movies_file mr₁ st₁).1.movies_by_genre).getD []).Perm
      ((lookup' g (load_movies_file mr₂ st₂).1.movies_by_genre).getD []) := by
    intro g
    rw [List.perm_ext_iff_of_nodup (hset₁ g) (hset₂ g)]
    intro x
    rw [hg₁, hg₂, mem_mbgFold g x mr₁ [], mem_mbgFold g x mr₂ []]
    simp only [lookup', Option.getD_none, List.not_mem_nil, or_false]
    constructor
    · rintro ⟨row, hrow, hp⟩
      exact ⟨row, hm.subset hrow, hp⟩
    · rintro ⟨row, hrow, hp⟩
      exact ⟨row, hm.symm.subset hrow, hp⟩
  have hmbgK₁ : (((load_movies_file mr₁ st₁).1.movies_by_genre.map (fun p => p.1))).Nodup := by
    rw [hg₁]
    exact mbgFold_pres (fun mbg => ((mbg.map (fun p => p.1))).Nodup)
      (fun g nn mbg h => addToGenre_keysNodup g nn mbg h) mr₁ [] (by simp)
  have hmbgK₂ : (((load_movies_file mr₂ st₂).1.movies_by_genre.map (fun p => p.1))).Nodup := by
    rw [hg₂]
    exact mbgFold_pres (fun mbg => ((mbg.map (fun p => p.1))).Nodup)
      (fun g nn mbg h => addToGenre_keysNodup g nn mbg h) mr₂ [] (by simp)
  have hmbgNE₁ : ∀ p ∈ (load_movies_file mr₁ st₁).1.movies_by_genre, p.2 ≠ [] := by
    rw [hg₁]
    exact mbgFold_pres (fun mbg => ∀ p ∈ mbg, p.2 ≠ [])
      (fun g nn mbg h => addToGenre_entriesNonempty g nn mbg h) mr₁ [] (by simp)
  have hmbgNE₂ : ∀ p ∈ (load_movies_file mr₂ st₂).1.movies_by_genre, p.2 ≠ [] := by
    rw [hg₂]
    exact mbgFold_pres (fun mbg => ∀ p ∈ mbg, p.2 ≠ [])
      (fun g nn mbg h => addToGenre_entriesNonempty g nn mbg h) mr₂ [] (by simp)
  exact outputs_eq_of_rel
    (load_ratings_file rr₁ (load_movies_file mr₁ st₁).1).1
    (load_ratings_file rr₂ (load_movies_file mr₂ st₂).1).1
    hstored hrbmK₁ hrbmK₂ hrbmNE₁ hrbmNE₂ hmbgS hmbgK₁ hmbgK₂ hmbgNE₁ hmbgNE₂

theorem c8_permutation_invariance_witness :
    fixtureMovies.Perm fixtureMovies.reverse ∧
    (fixtureRatings.eraseIdx 2).Perm (fixtureRatings.eraseIdx 2).reverse ∧
    ((fixtureMovies.filter acceptMB).map (fun r => r.2.2)).Nodup ∧
    (((fixtureRatings.eraseIdx 2).filter acceptRB).map pairOf).Nodup ∧
    rank_movies_by_average
      (load_ratings_file (fixtureRatings.eraseIdx 2) (load_movies_file fixtureMovies emptyStore).1).1
      none none =
    rank_movies_by_average
      (load_ratings_file (fixtureRatings.eraseIdx 2).reverse
        (load_movies_file fixtureMovies.reverse emptyStore).1).1 none none :=
  ⟨(List.reverse_perm fixtureMovies).symm, (List.reverse_perm (fixtureRatings.eraseIdx 2)).symm,
    by decide, by decide,
    (c8_permutation_invariance fixtureMovies fixtureMovies.reverse (fixtureRatings.eraseIdx 2)
      (fixtureRatings.eraseIdx 2).reverse emptyStore emptyStore
      (List.reverse_perm fixtureMovies).symm (List.reverse_perm (fixtureRatings.eraseIdx 2)).symm
      (by decide) (by decide)).1 none⟩
